import Mathlib

/-!
Verification development for the graphkey-rust repository: a shallow
embedding of `src/coloring.rs` and `src/lib.rs` (the individualization-
refinement canonical-labelling engine), together with theorems settling
the specification claims.

Modelling conventions:
* `usize` is `Nat`; `Vec<T>` is `List T`; `HashMap<usize, T>` is an
  association list `List (Nat × T)` with in-place replacement on insert;
  `HashSet<usize>` is a sorted duplicate-free `List Nat` (the source never
  observes hash iteration order: degree accumulation is commutative, and
  every list derived from a set is sorted before use).
* The `Rc<RefCell<Cell>>` handles of the source are modelled by an arena:
  `arena` holds every cell ever created, indexed by a stable id; the
  `cells` vector, the colour map and the node map store ids, so mutating
  a cell through one handle is visible through all of them, exactly as
  with the source's shared pointers.
* `&mut self` methods become state-passing functions; `Colouring::clone`
  is the identity (value semantics).
* Source panics (`assert!`, `unwrap`, `panic!`) that the claims observe
  are modelled with `Option`; loops without a structural termination
  argument take explicit fuel, large enough for every input on which the
  source terminates.
-/

namespace Graphkey

/-- `Vec` element assignment `v[i] = a` (out of range: unchanged, as the
source would panic only on indices the claims never reach). -/
def listSet {α : Type} : List α → Nat → α → List α
  | [], _, _ => []
  | _ :: xs, 0, a => a :: xs
  | x :: xs, n+1, a => x :: listSet xs n a

/-- `Vec::insert(idx, a)`: insert so that `a` ends up at index `idx`. -/
def insertAt {α : Type} : List α → Nat → α → List α
  | xs, 0, a => a :: xs
  | [], _+1, a => [a]
  | x :: xs, n+1, a => x :: insertAt xs n a

/-- `HashMap::get`. -/
def mapGet? {α : Type} : List (Nat × α) → Nat → Option α
  | [], _ => none
  | (k', v) :: rest, k => if k' = k then some v else mapGet? rest k

/-- `HashMap::insert`: replace the entry in place, or append a new one. -/
def mapInsert {α : Type} : List (Nat × α) → Nat → α → List (Nat × α)
  | [], k, v => [(k, v)]
  | (k', v') :: rest, k, v =>
    if k' = k then (k, v) :: rest else (k', v') :: mapInsert rest k v

/-- `HashMap::remove` (keys are unique in a maintained map). -/
def mapRemove {α : Type} : List (Nat × α) → Nat → List (Nat × α)
  | [], _ => []
  | (k', v') :: rest, k =>
    if k' = k then rest else (k', v') :: mapRemove rest k

/-- The key set of a `HashMap` (iteration order of the association list). -/
def mapKeys {α : Type} (m : List (Nat × α)) : List Nat := m.map Prod.fst

/-- `if let Some(v) = m.remove(&k) { m.insert(k', v) }` — the key-move
idiom used on `color_cell` by `individualize` and `split_cell`. -/
def mapMove {α : Type} (m : List (Nat × α)) (k k' : Nat) : List (Nat × α) :=
  match mapGet? m k with
  | some v => mapInsert (mapRemove m k) k' v
  | none => m

/-- Ascending sort (`Vec::sort` on `usize`). -/
def sortAsc (l : List Nat) : List Nat := l.insertionSort (· ≤ ·)

/-- Descending sort (`sort_by(|a, b| b.cmp(a))`). -/
def sortDesc (l : List Nat) : List Nat := l.insertionSort (· ≥ ·)

/-- Canonical list form of a `HashSet<usize>`. -/
def setList (l : List Nat) : List Nat := (sortAsc l).dedup

/-- A `Cell` (`coloring.rs` lines 19-23): a colour together with the set
of member nodes, the set kept as a sorted duplicate-free list. -/
structure Cell where
  color : Nat
  members : List Nat
deriving Repr, DecidableEq

instance : Inhabited Cell := ⟨⟨0, []⟩⟩

/-- A `Colouring` (`coloring.rs` lines 39-45).  `arena` is the store of
all cells ever created (the targets of the source's `Rc` handles);
`cellIds` is the `cells` vector, `color_cell` the colour map and
`node_cell` the node map, each holding arena ids in place of pointers;
`node_color` is the node-to-colour vector. -/
structure Colouring where
  size : Nat
  arena : List Cell
  cellIds : List Nat
  color_cell : List (Nat × Nat)
  node_cell : List Nat
  node_color : List Nat
deriving Repr, DecidableEq

/-- The graph capability the core needs: a node count and an undirected
edge list (petgraph's `UnGraph` as used by the source). -/
structure Graph where
  node_count : Nat
  edges : List (Nat × Nat)
deriving Repr, DecidableEq

/-- `g.neighbors(u)`: both endpoints' views of the edge list. -/
def Graph.neighbors (g : Graph) (u : Nat) : List Nat :=
  g.edges.foldr
    (fun e acc =>
      if e.1 = u then e.2 :: acc else if e.2 = u then e.1 :: acc else acc) []

namespace Colouring

/-- Dereference `cells[i]` through the arena. -/
def cellAt (C : Colouring) (i : Nat) : Cell :=
  C.arena.getD (C.cellIds.getD i 0) default

/-- `Colouring::new` (lines 50-63): one cell `{0..N-1}` of colour 0. -/
def new (g : Graph) : Colouring :=
  let size := g.node_count
  { size := size
    arena := [⟨0, List.range size⟩]
    cellIds := [0]
    color_cell := [(0, 0)]
    node_cell := List.replicate size 0
    node_color := List.replicate size 0 }

/-- `Colouring::clone` (lines 69-104): a deep copy; with value semantics
this is the identity (the source also rebuilds `node_cell` from the
cells, which agrees because `node_cell` is never read by the algorithm). -/
def clone (C : Colouring) : Colouring := C

/-- `is_discrete` (lines 108-110). -/
def is_discrete (C : Colouring) : Bool := C.cellIds.length == C.size

/-- `get_cell_count` (lines 112-114). -/
def get_cell_count (C : Colouring) : Nat := C.cellIds.length

/-- `get_cell_members` (lines 117-119). -/
def get_cell_members (C : Colouring) (idx : Nat) : List Nat :=
  (C.cellAt idx).members

/-- The body of the `get_color_index` binary-search loop (lines 171-177).
The source loop has no exit when the colour is absent, so the embedding
takes fuel; `none` models non-termination. -/
def getColorIndexLoop (C : Colouring) (c : Nat) : Nat → Nat → Nat → Option Nat
  | 0, _, _ => none
  | fuel+1, i, j =>
    let k := (i + j) / 2
    let ck := (C.cellAt k).color
    if ck = c then some k
    else if ck > c then getColorIndexLoop C c fuel i k
    else getColorIndexLoop C c fuel k j

/-- `get_color_index` (lines 166-178). -/
def get_color_index (C : Colouring) (c : Nat) : Option Nat :=
  if (C.cellAt 0).color = c then some 0
  else getColorIndexLoop C c (C.cellIds.length + 1) 0 C.cellIds.length

/-- `individualize` (lines 183-218), returning the updated colouring and
the returned colour `old_color + 1`.  The new singleton keeps the old
colour and is inserted at `cell_idx`; the shrunk cell gets colour
`old_color + 1`. -/
def individualize (C : Colouring) (cell_idx node : Nat) : Colouring × Nat :=
  let oldId := C.cellIds.getD cell_idx 0
  let oldCell := C.arena.getD oldId default
  let old_color := oldCell.color
  let newId := C.arena.length
  let newCell : Cell := ⟨old_color, [node]⟩
  let oldCell' : Cell := ⟨old_color + 1, oldCell.members.filter (fun u => u != node)⟩
  let node_color' :=
    oldCell'.members.foldl (fun nc u => listSet nc u (old_color + 1)) C.node_color
  ({ size := C.size
     arena := listSet C.arena oldId oldCell' ++ [newCell]
     cellIds := insertAt C.cellIds cell_idx newId
     color_cell := mapInsert (mapMove C.color_cell old_color (old_color + 1)) old_color newId
     node_cell := listSet C.node_cell node newId
     node_color := node_color' },
   old_color + 1)

/-- `split_cell` (lines 222-262).  The extracted cell keeps the old
colour and is inserted at `cell_idx`; the shrunk cell gets colour
`old_color + new_members.len()`.  The source function has no return
expression (its value is `()`), so only the new state is produced. -/
def split_cell (C : Colouring) (cell_idx : Nat) (new_members : List Nat) : Colouring :=
  let oldId := C.cellIds.getD cell_idx 0
  let oldCell := C.arena.getD oldId default
  let old_color := oldCell.color
  let new_color := old_color + new_members.length
  let newId := C.arena.length
  let newCell : Cell := ⟨old_color, setList new_members⟩
  let oldCell' : Cell := ⟨new_color, oldCell.members.filter (fun u => !(new_members.contains u))⟩
  let node_color' :=
    oldCell'.members.foldl (fun nc u => listSet nc u new_color) C.node_color
  { size := C.size
    arena := listSet C.arena oldId oldCell' ++ [newCell]
    cellIds := insertAt C.cellIds cell_idx newId
    color_cell := mapInsert (mapMove C.color_cell old_color new_color) old_color newId
    node_cell := new_members.foldl (fun ncell u => listSet ncell u newId) C.node_cell
    node_color := node_color' }

/-- The value returned by the source's `split_cell`: the Rust function's
return type is `()`, so every call returns the unit value. -/
def split_cell_ret (_C : Colouring) (_cell_idx : Nat) (_new_members : List Nat) : Unit := ()

/-- `select_cell_v1` (lines 407-416): index of the first cell with more
than one member; `none` models the `panic!` when every cell is a
singleton (or empty). -/
def select_cell_v1 (C : Colouring) : Option Nat :=
  (List.range C.cellIds.length).find? (fun i => (C.cellAt i).members.length > 1)

end Colouring

namespace Colouring

/-- One degree-map increment (`refine`, line 323):
`degrees.entry(v).and_modify(|c| *c += 1).or_insert(1)`. -/
def bumpDegree (degrees : List (Nat × Nat)) (v : Nat) : List (Nat × Nat) :=
  match mapGet? degrees v with
  | some n => mapInsert degrees v (n + 1)
  | none => mapInsert degrees v 1

/-- The degree map and the multiset of touched colours for one popped
colour (`refine`, lines 314-327): for every member `u` of the studied
cell and every neighbour `v`, bump `degrees[v]` and record
`node_color[v]`. -/
def degreeData (C : Colouring) (g : Graph) (members : List Nat) :
    List (Nat × Nat) × List Nat :=
  members.foldl
    (fun acc u =>
      (g.neighbors u).foldl
        (fun acc2 v => (bumpDegree acc2.1 v, acc2.2 ++ [C.node_color.getD v 0]))
        acc)
    ([], [])

/-- Bucket the members of a cell by degree (`refine`, lines 344-359);
members with no degree entry count as 0.  The association list is in
first-occurrence order, as a `HashMap` is (only its key set and values
are ever observed). -/
def buildSplits (degrees : List (Nat × Nat)) (members : List Nat) :
    List (Nat × List Nat) :=
  members.foldl
    (fun splits u =>
      let d := (mapGet? degrees u).getD 0
      match mapGet? splits d with
      | some m => mapInsert splits d (m ++ [u])
      | none => splits ++ [(d, [u])])
    []

/-- The split loop over the ascending-degree buckets (`refine`, lines
371-387): each bucket is extracted with `split_cell`; the colour of the
cell now at `cell_idx` (the extracted bucket) is pushed onto the
worklist, the colour of the cell at `cell_idx + 1` (the shrunk residual)
is appended to the trace, and the index advances.  Returns the new
state, the final index, the worklist pushes and the trace appends. -/
def splitBuckets (C : Colouring) (cell_idx : Nat) :
    List (List Nat) → Colouring × Nat × List Nat × List Nat
  | [] => (C, cell_idx, [], [])
  | h :: rest =>
    let C' := C.split_cell cell_idx h
    let wPush := (C'.cellAt cell_idx).color
    let tPush := (C'.cellAt (cell_idx + 1)).color
    let (C'', idx'', ws, ts) := splitBuckets C' (cell_idx + 1) rest
    (C'', idx'', wPush :: ws, tPush :: ts)

/-- Processing of one touched colour (`refine`, lines 333-397): skip
singleton cells and single-bucket cells; otherwise split off every
bucket but the highest-degree one in ascending degree order, then push
the final residual's colour onto the worklist iff it is not a
singleton.  Returns the new state, worklist and trace.  The source
unwraps the `color_cell` lookup; an absent colour (unreachable from a
wellformed state) leaves the state unchanged here. -/
def processColor (_g : Graph) (degrees : List (Nat × Nat))
    (st : Colouring × List Nat × List Nat) (c : Nat) :
    Colouring × List Nat × List Nat :=
  let (C, W, trace) := st
  match mapGet? C.color_cell c with
  | none => (C, W, trace)
  | some cid =>
    let cell := C.arena.getD cid default
    if cell.members.length = 1 then (C, W, trace)
    else
      let cell_idx := (C.get_color_index c).getD 0
      let splits := buildSplits degrees cell.members
      if splits.length = 1 then (C, W, trace)
      else
        let splits_degrees := sortAsc (mapKeys splits)
        let last_degree := splits_degrees.getLast?.getD 0
        let buckets :=
          splits_degrees.dropLast.map (fun d => (mapGet? splits d).getD [])
        let (C', fidx, ws, ts) := splitBuckets C cell_idx buckets
        let lastBucket := (mapGet? splits last_degree).getD []
        let W' :=
          if lastBucket.length > 1 then W ++ ws ++ [(C'.cellAt fidx).color]
          else W ++ ws
        (C', W', trace ++ ts)

/-- The main worklist loop of `refine` (lines 291-398).  The
`BinaryHeap<Reverse<usize>>` is a multiset popped at its minimum, with
all duplicates of the popped colour removed (lines 293-310); fuel models
the loop counter, ample for every terminating run. -/
def refineLoop (g : Graph) : Nat → List Nat → Colouring → List Nat →
    Colouring × List Nat
  | 0, _, C, trace => (C, trace)
  | fuel+1, W, C, trace =>
    match W.min? with
    | none => (C, trace)
    | some s =>
      let W' := W.filter (fun x => x != s)
      let members := (C.arena.getD ((mapGet? C.color_cell s).getD 0) default).members
      let (degrees, touched) := degreeData C g members
      let visited := setList touched
      let (C', W'', trace') :=
        visited.foldl (processColor g degrees) (C, W', trace)
      refineLoop g fuel W'' C' trace'

/-- `refine` (lines 272-401): return immediately on a discrete
colouring, otherwise seed the worklist with every key of `color_cell`
and run the loop.  The fuel bounds the number of iterations: each
iteration with no split removes at least one worklist colour and each
split increases the cell count (at most `size` cells can ever exist on
a wellformed colouring), so the chosen fuel covers every run on which
the source terminates. -/
def refine (C : Colouring) (g : Graph) : Colouring × List Nat :=
  if C.is_discrete then (C, [])
  else
    let W := mapKeys C.color_cell
    refineLoop g ((C.size + 2) * (C.size + 2) + W.length) W C []

/-- `compute_graph_from_discrete` (lines 419-439): relabel each edge
endpoint by its colour. -/
def compute_graph_from_discrete (C : Colouring) (g : Graph) : Graph :=
  { node_count := C.size
    edges := g.edges.map (fun e => (C.node_color.getD e.1 0, C.node_color.getD e.2 0)) }

end Colouring

/-- `Kdim` (lines 455-462): cell count plus trace. -/
structure Kdim where
  cell_count : Nat
  trace : List Nat
deriving Repr, DecidableEq

/-- Rust's lexicographic `Ord` on `Vec<usize>` (shorter prefix is less). -/
def listCmp : List Nat → List Nat → Ordering
  | [], [] => .eq
  | [], _ :: _ => .lt
  | _ :: _, [] => .gt
  | x :: xs, y :: ys =>
    match compare x y with
    | .eq => listCmp xs ys
    | o => o

/-- `Ord for Kdim` (lines 465-471): larger cell count wins, ties broken
by the reversed lexicographic order on the trace. -/
def Kdim.cmp (x y : Kdim) : Ordering :=
  if x.cell_count > y.cell_count then .gt
  else if x.cell_count < y.cell_count then .lt
  else (listCmp x.trace y.trace).swap

/-- `PartialEq for Kdim` (lines 479-486). -/
def Kdim.eqb (x y : Kdim) : Bool :=
  if x.cell_count != y.cell_count then false else x.trace == y.trace

/-- `<` derived from `Ord` (via `PartialOrd`, lines 473-477). -/
def Kdim.ltb (x y : Kdim) : Bool := Kdim.cmp x y == .lt

/-- `<=` derived from `Ord`. -/
def Kdim.leb (x y : Kdim) : Bool := Kdim.cmp x y != .gt

/-- Successive differences against a running previous value
(`compute_descriptor`, lines 201-204). -/
def diffsFrom (prev : Nat) : List Nat → List Nat
  | [] => []
  | j :: rest => (j - prev) :: diffsFrom j rest

/-- `compute_descriptor` (`lib.rs` lines 189-209): start with `[n]`;
for each `i` in `0..n-1` append the ascending gaps of the neighbours of
`i` above `i` (starting from `prev = i`) followed by the separator `n`.
(For `n = 0` the source's `0..(n-1)` underflows and panics; that call
site is unreachable because the search aborts first, and the embedding
just produces `[0]` there.) -/
def compute_descriptor (g : Graph) : List Nat :=
  let n := g.node_count
  (List.range (n - 1)).foldl
    (fun acc i =>
      let ordered := sortAsc ((g.neighbors i).filter (fun j => i < j))
      acc ++ diffsFrom i ordered ++ [n])
    [n]

/-- `TreeNode` (`lib.rs` lines 181-187). -/
inductive TreeNode where
  | mk (c : Colouring) (target_cell : Nat) (children : List Nat)
       (son_in_exp_path : Option TreeNode) (son_k_dim : Option Kdim)

def TreeNode.c : TreeNode → Colouring
  | .mk c _ _ _ _ => c

def TreeNode.target_cell : TreeNode → Nat
  | .mk _ t _ _ _ => t

def TreeNode.children : TreeNode → List Nat
  | .mk _ _ ch _ _ => ch

def TreeNode.son_in_exp_path : TreeNode → Option TreeNode
  | .mk _ _ _ s _ => s

def TreeNode.son_k_dim : TreeNode → Option Kdim
  | .mk _ _ _ _ k => k

/-- The experimental-path descent (`lib.rs` lines 114-153): starting
from a freshly refined branch colouring `gc` with branch key `k`,
repeatedly choose the target cell, pop the last child (the smallest
index, as the list is sorted descending), individualize, refine, and
chain the nodes by ownership until a discrete colouring becomes the
leaf.  Returns the node attached to the branch's parent; `none` models
the `select_cell_v1` panic or fuel exhaustion (each step adds a cell,
so `size + 2` fuel covers every reachable run). -/
def chainFrom (g : Graph) : Nat → Colouring → Kdim → Option TreeNode
  | 0, _, _ => none
  | fuel+1, gc, k =>
    if gc.is_discrete then some (.mk gc 0 [] none (some k))
    else
      match gc.select_cell_v1 with
      | none => none
      | some target =>
        let children := sortDesc (gc.get_cell_members target)
        match children.getLast? with
        | none => none
        | some v =>
          let children' := children.dropLast
          let (gc2, new_color) := gc.clone.individualize target v
          let (gc3, tr) := gc2.refine g
          let k2 : Kdim := ⟨gc3.get_cell_count, new_color :: tr⟩
          match chainFrom g fuel gc3 k2 with
          | none => none
          | some son => some (.mk gc target children' (some son) (some k))

/-- The visit order of a `while … vec.pop()` loop over a vector: the
last element is taken first.  This is the order in which the child loop
of `lib.rs` (lines 91-94) individualizes the members of the target
cell. -/
def popOrderAux {α : Type} : Nat → List α → List α
  | 0, _ => []
  | _+1, [] => []
  | fuel+1, x :: xs =>
    (x :: xs).getLast (List.cons_ne_nil x xs) :: popOrderAux fuel (x :: xs).dropLast

def popOrder {α : Type} (l : List α) : List α := popOrderAux l.length l

/-- The running per-level state of the search (`lib.rs` lines 58-69):
the next frontier, the best `Kdim` seen on the level, and the
leaf-found flag. -/
structure SearchState where
  next_list : List TreeNode
  best : Kdim
  leaf_found : Bool

/-- The child loop of one tree node (`lib.rs` lines 91-160), processing
the children in pop order (last element first, hence the argument is
the reversed children list): clone, individualize, refine, build the
branch key `Kdim(cell_count, individualized colour :: trace)`, drop the
branch when it is below the level best, reset the frontier when it is
strictly above, then attach and immediately detach the experimental
path, pushing its head onto the frontier. -/
def processChildrenRev (g : Graph) (node_c : Colouring) (target : Nat) :
    List Nat → SearchState → Option SearchState
  | [], st => some st
  | v :: rest, st =>
    let (gc2, new_color) := node_c.clone.individualize target v
    let (gc3, tr) := gc2.refine g
    let k : Kdim := ⟨gc3.get_cell_count, new_color :: tr⟩
    if Kdim.ltb k st.best then processChildrenRev g node_c target rest st
    else
      let st1 : SearchState :=
        if Kdim.ltb st.best k then ⟨[], k, st.leaf_found⟩ else st
      match chainFrom g (node_c.size + 2) gc3 k with
      | none => none
      | some chain =>
        processChildrenRev g node_c target rest
          ⟨st1.next_list ++ [chain], st1.best,
           st1.leaf_found || chain.c.is_discrete⟩

/-- Processing of one frontier node (`lib.rs` lines 71-160): first the
pre-attached experimental-path descendant is considered, filtered
against the level best using the node's stored `son_k_dim`; then every
remaining child is expanded. -/
def processNode (g : Graph) (node : TreeNode) (st : SearchState) :
    Option SearchState :=
  match node.son_in_exp_path, node.son_k_dim with
  | some b, some k =>
    let lf := st.leaf_found || b.c.is_discrete
    let st1 : SearchState :=
      if Kdim.leb st.best k then
        if Kdim.ltb st.best k then ⟨[b], k, lf⟩
        else ⟨st.next_list ++ [b], st.best, lf⟩
      else ⟨st.next_list, st.best, lf⟩
    processChildrenRev g node.c node.target_cell (popOrder node.children) st1
  | _, _ =>
    processChildrenRev g node.c node.target_cell (popOrder node.children) st

/-- Fold `processNode` over the current frontier. -/
def levelStep (g : Graph) : List TreeNode → SearchState → Option SearchState
  | [], st => some st
  | n :: rest, st =>
    match processNode g n st with
    | none => none
    | some st' => levelStep g rest st'

/-- The breadth-first frontier loop (`lib.rs` lines 64-162): run a
level with a fresh `best_k_dim = Kdim(0, [])`, stop when a discrete
descendant was seen.  One level per individualization depth, so
`node_count + 2` fuel covers every reachable run. -/
def searchLoop (g : Graph) : Nat → List TreeNode → Option (List TreeNode)
  | 0, _ => none
  | fuel+1, current =>
    match levelStep g current ⟨[], ⟨0, []⟩, false⟩ with
    | none => none
    | some st =>
      if st.leaf_found then some st.next_list
      else searchLoop g fuel st.next_list

/-- `GraphKey::new` (`lib.rs` lines 21-176): build the uniform
colouring, refine once; if discrete, emit the descriptor directly,
otherwise run the search tree and take the lexicographic maximum
descriptor over the surviving leaves.  `none` models an aborted run
(the `select_cell_v1` panic, an empty survivor list at line 164, or
fuel exhaustion). -/
def graphKey (g : Graph) : Option (List Nat) :=
  let gc0 := Colouring.new g
  let (gc, _) := gc0.refine g
  if gc.is_discrete then
    some (compute_descriptor (gc.compute_graph_from_discrete g))
  else
    match gc.select_cell_v1 with
    | none => none
    | some target =>
      let children := sortDesc (gc.get_cell_members target)
      let root : TreeNode := .mk gc target children none none
      match searchLoop g (g.node_count + 2) [root] with
      | none => none
      | some [] => none
      | some (l0 :: rest) =>
        let d0 := compute_descriptor (l0.c.compute_graph_from_discrete g)
        some (rest.foldl
          (fun best leaf =>
            let d := compute_descriptor (leaf.c.compute_graph_from_discrete g)
            if listCmp d best = .gt then d else best)
          d0)

/-! ### Observables and invariants used by the verification -/

/-- The sequence of cell values of the `cells` vector, read through the
arena (the observable content of `self.cells` in the source). -/
def Colouring.cellsList (C : Colouring) : List Cell :=
  C.cellIds.map (fun id => C.arena.getD id default)

/-- `degrees[v]` as accumulated by `refine` for a splitter member list
`S`: the number of pairs `(u, v)` with `u ∈ S` and `v` a neighbour of
`u` (multi-edges counted with multiplicity). -/
def degIn (g : Graph) (v : Nat) (S : List Nat) : Nat :=
  (S.map (fun u => (g.neighbors u).count v)).sum

/-- An equitable colouring (spec glossary): every two members of one
cell have the same number of connections into any cell.  Kept an
`abbrev` so that concrete instances are decidable by evaluation. -/
abbrev Equitable (C : Colouring) (g : Graph) : Prop :=
  ∀ i < C.cellIds.length, ∀ j < C.cellIds.length,
    ∀ u ∈ (C.cellAt i).members, ∀ w ∈ (C.cellAt i).members,
      degIn g u (C.cellAt j).members = degIn g w (C.cellAt j).members

/-- Executable check that consecutive cells satisfy
`color + |members| ≤ next.color` (the packed-colour invariant). -/
def packedB : List Cell → Bool
  | [] => true
  | [_] => true
  | a :: b :: rest => (a.color + a.members.length ≤ b.color : Bool) && packedB (b :: rest)

/-- Wellformedness of a colouring: the invariants (I1)-(I5) of the
spec, expressed over the arena model.  All conjuncts are decidable, so
concrete colourings can be checked by evaluation. -/
abbrev WF (C : Colouring) : Prop :=
  C.node_color.length = C.size ∧
  C.node_cell.length = C.size ∧
  C.cellIds.Nodup ∧
  (∀ id ∈ C.cellIds, id < C.arena.length) ∧
  (∀ cell ∈ C.cellsList, cell.members ≠ [] ∧ cell.members.Sorted (· < ·) ∧
    ∀ u ∈ cell.members, u < C.size) ∧
  packedB C.cellsList = true ∧
  (sortAsc (C.cellsList.map Cell.members).flatten = List.range C.size) ∧
  (∀ i < C.cellIds.length, ∀ u ∈ (C.cellAt i).members,
    C.node_color.getD u 0 = (C.cellAt i).color) ∧
  (mapKeys C.color_cell).Nodup ∧
  (∀ p ∈ C.color_cell, p.2 ∈ C.cellIds ∧ (C.arena.getD p.2 default).color = p.1) ∧
  (∀ id ∈ C.cellIds, mapGet? C.color_cell ((C.arena.getD id default).color) = some id)

/-! ### Helper lemmas about the container embeddings -/

theorem listSet_length {α : Type} (l : List α) (i : Nat) (a : α) :
    (listSet l i a).length = l.length := by
  induction l generalizing i with
  | nil => rfl
  | cons x xs ih =>
    cases i with
    | zero => rfl
    | succ n => simp [listSet, ih]

theorem getD_listSet_self {α : Type} (l : List α) (i : Nat) (a d : α)
    (h : i < l.length) : (listSet l i a).getD i d = a := by
  induction l generalizing i with
  | nil => simp at h
  | cons x xs ih =>
    cases i with
    | zero => rfl
    | succ n =>
      simp only [listSet, List.getD_cons_succ]
      exact ih n (by simpa using h)

theorem getD_listSet_ne {α : Type} (l : List α) (i j : Nat) (a d : α)
    (h : j ≠ i) : (listSet l i a).getD j d = l.getD j d := by
  induction l generalizing i j with
  | nil => rfl
  | cons x xs ih =>
    cases i with
    | zero =>
      cases j with
      | zero => exact absurd rfl h
      | succ m => rfl
    | succ n =>
      cases j with
      | zero => rfl
      | succ m =>
        simp only [listSet, List.getD_cons_succ]
        exact ih n m (fun he => h (by simp [he]))

theorem insertAt_length {α : Type} (l : List α) (i : Nat) (a : α) :
    (insertAt l i a).length = l.length + 1 := by
  induction l generalizing i with
  | nil => cases i <;> rfl
  | cons x xs ih =>
    cases i with
    | zero => rfl
    | succ n => simp [insertAt, ih]

theorem getD_insertAt_self {α : Type} (l : List α) (i : Nat) (a d : α)
    (h : i ≤ l.length) : (insertAt l i a).getD i d = a := by
  induction l generalizing i with
  | nil =>
    cases i with
    | zero => rfl
    | succ n => simp at h
  | cons x xs ih =>
    cases i with
    | zero => rfl
    | succ n =>
      simp only [insertAt, List.getD_cons_succ]
      exact ih n (by simpa using h)

theorem getD_insertAt_lt {α : Type} (l : List α) (i j : Nat) (a d : α)
    (h : j < i) (hi : i ≤ l.length) : (insertAt l i a).getD j d = l.getD j d := by
  induction l generalizing i j with
  | nil =>
    have hz : i = 0 := by simpa using hi
    subst hz
    exact absurd h (by omega)
  | cons x xs ih =>
    cases i with
    | zero => exact absurd h (by omega)
    | succ n =>
      cases j with
      | zero => rfl
      | succ m =>
        simp only [insertAt, List.getD_cons_succ]
        exact ih n m (by omega) (by simpa using hi)

theorem getD_insertAt_ge {α : Type} (l : List α) (i j : Nat) (a d : α)
    (h : i ≤ j) : (insertAt l i a).getD (j + 1) d = l.getD j d := by
  induction l generalizing i j with
  | nil =>
    cases i with
    | zero => rfl
    | succ n =>
      cases j with
      | zero => simp at h
      | succ m => simp [insertAt]
  | cons x xs ih =>
    cases i with
    | zero => rfl
    | succ n =>
      cases j with
      | zero => simp at h
      | succ m =>
        simp only [insertAt, List.getD_cons_succ]
        exact ih n m (by omega)

theorem mapGet?_mapInsert_self {α : Type} (m : List (Nat × α)) (k : Nat) (v : α) :
    mapGet? (mapInsert m k v) k = some v := by
  induction m with
  | nil => simp [mapInsert, mapGet?]
  | cons p rest ih =>
    by_cases h : p.1 = k
    · simp [mapInsert, h, mapGet?]
    · simp [mapInsert, h, mapGet?, ih]

theorem mapGet?_mapInsert_ne {α : Type} (m : List (Nat × α)) (k k' : Nat) (v : α)
    (h : k' ≠ k) : mapGet? (mapInsert m k v) k' = mapGet? m k' := by
  induction m with
  | nil => simp [mapInsert, mapGet?, Ne.symm h]
  | cons p rest ih =>
    by_cases hp : p.1 = k
    · simp only [mapInsert, if_pos hp, mapGet?]
      rw [if_neg (Ne.symm h), if_neg (by rw [hp]; exact Ne.symm h)]
    · simp only [mapInsert, if_neg hp, mapGet?]
      by_cases hq : p.1 = k'
      · simp [hq]
      · simp [hq, ih]

theorem mapGet?_eq_none_of_not_mem_keys {α : Type} (m : List (Nat × α)) (k : Nat)
    (h : k ∉ mapKeys m) : mapGet? m k = none := by
  induction m with
  | nil => rfl
  | cons p rest ih =>
    simp only [mapKeys, List.map_cons, List.mem_cons] at h
    push_neg at h
    simp only [mapGet?]
    rw [if_neg (Ne.symm h.1)]
    exact ih h.2

theorem mapGet?_mapRemove_self {α : Type} (m : List (Nat × α)) (k : Nat)
    (h : (mapKeys m).Nodup) : mapGet? (mapRemove m k) k = none := by
  induction m with
  | nil => rfl
  | cons p rest ih =>
    simp only [mapKeys, List.map_cons, List.nodup_cons] at h
    by_cases hp : p.1 = k
    · simp only [mapRemove, if_pos hp]
      subst hp
      exact mapGet?_eq_none_of_not_mem_keys rest p.1 h.1
    · simp only [mapRemove, if_neg hp, mapGet?]
      exact ih h.2

theorem mapGet?_mapRemove_ne {α : Type} (m : List (Nat × α)) (k k' : Nat)
    (h : (mapKeys m).Nodup) (hk : k' ≠ k) :
    mapGet? (mapRemove m k) k' = mapGet? m k' := by
  induction m with
  | nil => rfl
  | cons p rest ih =>
    simp only [mapKeys, List.map_cons, List.nodup_cons] at h
    by_cases hp : p.1 = k
    · simp only [mapRemove, if_pos hp, mapGet?]
      rw [if_neg (by rw [hp]; exact Ne.symm hk)]
    · simp only [mapRemove, if_neg hp, mapGet?]
      by_cases hq : p.1 = k'
      · simp [hq]
      · simp [hq, ih h.2]

theorem mem_keys_of_mapGet? {α : Type} {m : List (Nat × α)} {k : Nat} {v : α}
    (h : mapGet? m k = some v) : k ∈ mapKeys m := by
  induction m with
  | nil => simp [mapGet?] at h
  | cons p rest ih =>
    simp only [mapGet?] at h
    by_cases hp : p.1 = k
    · simp [mapKeys, hp]
    · rw [if_neg hp] at h
      simp only [mapKeys, List.map_cons, List.mem_cons]
      exact Or.inr (ih h)

theorem mapGet?_isSome_of_mem_keys {α : Type} {m : List (Nat × α)} {k : Nat}
    (h : k ∈ mapKeys m) : ∃ v, mapGet? m k = some v := by
  induction m with
  | nil => simp [mapKeys] at h
  | cons p rest ih =>
    by_cases hp : p.1 = k
    · exact ⟨p.2, by simp [mapGet?, hp]⟩
    · simp only [mapKeys, List.map_cons, List.mem_cons] at h
      rcases h with h | h
      · exact absurd h.symm hp
      · obtain ⟨v, hv⟩ := ih h
        exact ⟨v, by simp [mapGet?, hp, hv]⟩

theorem keys_mapInsert {α : Type} (m : List (Nat × α)) (k : Nat) (v : α) :
    ∀ c, c ∈ mapKeys (mapInsert m k v) ↔ (c = k ∨ c ∈ mapKeys m) := by
  intro c
  induction m with
  | nil => simp [mapInsert, mapKeys]
  | cons p rest ih =>
    by_cases hp : p.1 = k
    · simp only [mapInsert, if_pos hp, mapKeys, List.map_cons, List.mem_cons]
      constructor
      · rintro (h | h)
        · exact Or.inl h
        · exact Or.inr (Or.inr h)
      · rintro (h | h | h)
        · exact Or.inl h
        · exact Or.inl (by rw [h, hp])
        · exact Or.inr h
    · simp only [mapInsert, if_neg hp, mapKeys, List.map_cons, List.mem_cons]
      rw [show (mapKeys (mapInsert rest k v) : List Nat) = List.map Prod.fst (mapInsert rest k v) from rfl] at ih
      constructor
      · rintro (h | h)
        · exact Or.inr (Or.inl h)
        · rcases ih.mp h with h2 | h2
          · exact Or.inl h2
          · exact Or.inr (Or.inr h2)
      · rintro (h | h | h)
        · exact Or.inr (ih.mpr (Or.inl h))
        · exact Or.inl h
        · exact Or.inr (ih.mpr (Or.inr h))

theorem keys_nodup_mapInsert {α : Type} (m : List (Nat × α)) (k : Nat) (v : α)
    (h : (mapKeys m).Nodup) : (mapKeys (mapInsert m k v)).Nodup := by
  induction m with
  | nil => simp [mapInsert, mapKeys]
  | cons p rest ih =>
    simp only [mapKeys, List.map_cons, List.nodup_cons] at h
    by_cases hp : p.1 = k
    · simp only [mapInsert, if_pos hp, mapKeys, List.map_cons, List.nodup_cons]
      exact ⟨by rw [← hp]; exact h.1, h.2⟩
    · simp only [mapInsert, if_neg hp, mapKeys, List.map_cons, List.nodup_cons]
      refine ⟨?_, ih h.2⟩
      intro hmem
      rcases (keys_mapInsert rest k v p.1).mp hmem with h2 | h2
      · exact hp h2
      · exact h.1 h2

theorem keys_mapRemove_sublist {α : Type} (m : List (Nat × α)) (k : Nat) :
    List.Sublist (mapKeys (mapRemove m k)) (mapKeys m) := by
  induction m with
  | nil => simp [mapRemove]
  | cons p rest ih =>
    by_cases hp : p.1 = k
    · simp only [mapRemove, if_pos hp, mapKeys, List.map_cons]
      exact (List.sublist_cons_self _ _)
    · simp only [mapRemove, if_neg hp, mapKeys, List.map_cons]
      exact ih.cons₂ _

theorem keys_nodup_mapRemove {α : Type} (m : List (Nat × α)) (k : Nat)
    (h : (mapKeys m).Nodup) : (mapKeys (mapRemove m k)).Nodup :=
  h.sublist (keys_mapRemove_sublist m k)

theorem not_mem_keys_mapRemove {α : Type} (m : List (Nat × α)) (k : Nat)
    (h : (mapKeys m).Nodup) : k ∉ mapKeys (mapRemove m k) := by
  intro hmem
  obtain ⟨v, hv⟩ := mapGet?_isSome_of_mem_keys hmem
  rw [mapGet?_mapRemove_self m k h] at hv
  exact Option.noConfusion hv

theorem mem_keys_mapRemove {α : Type} {m : List (Nat × α)} {k c : Nat}
    (h : (mapKeys m).Nodup) (hc : c ≠ k) :
    (c ∈ mapKeys (mapRemove m k) ↔ c ∈ mapKeys m) := by
  constructor
  · exact fun hm => (keys_mapRemove_sublist m k).mem hm
  · intro hm
    obtain ⟨v, hv⟩ := mapGet?_isSome_of_mem_keys hm
    rw [← mapGet?_mapRemove_ne m k c h hc] at hv
    exact mem_keys_of_mapGet? hv

/-! ### Sorting and set lemmas -/

theorem sortAsc_sorted (l : List Nat) : (sortAsc l).Sorted (· ≤ ·) :=
  List.sorted_insertionSort _ l

theorem sortAsc_perm (l : List Nat) : (sortAsc l).Perm l :=
  List.perm_insertionSort _ l

theorem setList_sorted (l : List Nat) : (setList l).Sorted (· < ·) := by
  have h1 : ((sortAsc l).dedup).Pairwise (· ≤ ·) :=
    List.Pairwise.sublist (List.dedup_sublist _) (sortAsc_sorted l)
  have h2 : ((sortAsc l).dedup).Pairwise (· ≠ ·) := List.nodup_dedup (sortAsc l)
  exact (h1.and h2).imp (fun hab => lt_of_le_of_ne hab.1 hab.2)

theorem setList_mem (l : List Nat) (u : Nat) : u ∈ setList l ↔ u ∈ l := by
  unfold setList
  rw [List.mem_dedup]
  exact (sortAsc_perm l).mem_iff

theorem sorted_lt_nodup {l : List Nat} (h : l.Sorted (· < ·)) : l.Nodup :=
  h.imp (fun hab => Nat.ne_of_lt hab)

theorem setList_eq_self {l : List Nat} (h : l.Sorted (· < ·)) : setList l = l := by
  unfold setList sortAsc
  rw [List.Sorted.insertionSort_eq (h.imp le_of_lt)]
  exact (sorted_lt_nodup h).dedup

/-! ### `popOrder` -/

theorem popOrderAux_eq_reverse {α : Type} (fuel : Nat) (l : List α)
    (h : l.length ≤ fuel) : popOrderAux fuel l = l.reverse := by
  induction fuel generalizing l with
  | zero =>
    have : l = [] := by
      cases l with
      | nil => rfl
      | cons x xs => simp at h
    subst this
    rfl
  | succ n ih =>
    cases l with
    | nil => rfl
    | cons x xs =>
      have hne : x :: xs ≠ [] := List.cons_ne_nil x xs
      show (x :: xs).getLast hne :: popOrderAux n (x :: xs).dropLast = _
      rw [ih (x :: xs).dropLast (by simp at h ⊢; omega)]
      conv_rhs => rw [← List.dropLast_append_getLast hne]
      rw [List.reverse_append]
      rfl

theorem popOrder_eq_reverse {α : Type} (l : List α) : popOrder l = l.reverse :=
  popOrderAux_eq_reverse l.length l le_rfl

/-! ### Lexicographic comparison -/

theorem listCmp_eq_lt_iff_lex (xs ys : List Nat) :
    listCmp xs ys = .lt ↔ List.Lex (· < ·) xs ys := by
  induction xs generalizing ys with
  | nil =>
    cases ys with
    | nil => simp [listCmp]
    | cons y ys => simp [listCmp, List.Lex.nil]
  | cons x xs ih =>
    cases ys with
    | nil =>
      simp only [listCmp]
      constructor
      · intro h
        exact absurd h (by simp)
      · intro h
        exact absurd h (List.Lex.not_nil_right _ _)
    | cons y ys =>
      rcases Nat.lt_trichotomy x y with h | h | h
      · have hc : listCmp (x :: xs) (y :: ys) = .lt := by
          simp [listCmp, Nat.compare_eq_lt.mpr h]
        simp only [hc]
        exact iff_of_true (by trivial) (List.Lex.rel h)
      · subst h
        simp only [listCmp, Nat.compare_eq_eq.mpr rfl]
        rw [ih ys]
        constructor
        · exact fun hl => List.Lex.cons hl
        · intro hl
          cases hl with
          | cons h2 => exact h2
          | rel h2 => exact absurd h2 (lt_irrefl x)
      · simp only [listCmp, Nat.compare_eq_gt.mpr h]
        constructor
        · intro h2
          exact absurd h2 (by simp)
        · intro hl
          cases hl with
          | cons h2 => exact absurd rfl (Nat.ne_of_gt h)
          | rel h2 => exact absurd h2 (Nat.lt_asymm h)

theorem listCmp_self (xs : List Nat) : listCmp xs xs = .eq := by
  induction xs with
  | nil => rfl
  | cons x xs ih => simp [listCmp, Nat.compare_eq_eq.mpr rfl, ih]

/-! ### C8: the ordering on `Kdim` -/

/-- C8 (confirmed).  The ordering on `Kdim = (cell_count, trace)`
satisfies: larger `cell_count` compares strictly greater; at equal
`cell_count`s, a lexicographically smaller trace compares strictly
greater; and `Kdim` equality (the `PartialEq` implementation) holds
exactly when both components are equal. -/
theorem C8_kdim_ordering :
    (∀ x y : Kdim, y.cell_count < x.cell_count → Kdim.cmp x y = .gt) ∧
    (∀ x y : Kdim, x.cell_count = y.cell_count →
      List.Lex (· < ·) x.trace y.trace → Kdim.cmp x y = .gt) ∧
    (∀ x y : Kdim, Kdim.eqb x y = true ↔ x = y) := by
  refine ⟨?_, ?_, ?_⟩
  · intro x y h
    simp [Kdim.cmp, h]
  · intro x y h hl
    have hcmp : listCmp x.trace y.trace = .lt := (listCmp_eq_lt_iff_lex _ _).mpr hl
    simp [Kdim.cmp, h, hcmp, Ordering.swap]
  · intro x y
    constructor
    · intro h
      simp only [Kdim.eqb] at h
      split at h
      · exact absurd h (by simp)
      · rename_i hcc
        cases x with
        | mk xc xt =>
          cases y with
          | mk yc yt =>
            simp only [bne_iff_ne, ne_eq, Decidable.not_not] at hcc
            simp only [beq_iff_eq] at h
            simp_all
    · rintro rfl
      simp [Kdim.eqb]

/-- Witness for C8 at concrete inputs. -/
theorem C8_kdim_ordering_witness :
    Kdim.cmp ⟨2, []⟩ ⟨1, [5]⟩ = .gt ∧
    Kdim.cmp ⟨3, [0, 1]⟩ ⟨3, [0, 2]⟩ = .gt ∧
    (Kdim.eqb ⟨1, [2]⟩ ⟨1, [2]⟩ = true ↔ (⟨1, [2]⟩ : Kdim) = ⟨1, [2]⟩) :=
  ⟨C8_kdim_ordering.1 ⟨2, []⟩ ⟨1, [5]⟩ (by decide),
   C8_kdim_ordering.2.1 ⟨3, [0, 1]⟩ ⟨3, [0, 2]⟩ rfl
     (List.Lex.cons (List.Lex.rel (by decide))),
   C8_kdim_ordering.2.2 ⟨1, [2]⟩ ⟨1, [2]⟩⟩

/-! ### C2: empty, singleton and two-node graphs -/

/-- C2 (code_bug).  On `K_1` and `K_2` the key comes out as the spec
says (`[1]` and `[2, 1, 2]`), but on the empty graph (`N = 0`) the
program aborts instead of returning the empty sequence: the initial
colouring has one (empty) cell, so `is_discrete` is `1 == 0 = false`,
the search starts, and `select_cell_v1` finds no cell with more than
one member and panics (modelled by `none`). -/
theorem C2_small_graph_keys :
    graphKey ⟨0, []⟩ = none ∧
    graphKey ⟨1, []⟩ = some [1] ∧
    graphKey ⟨2, [(0, 1)]⟩ = some [2, 1, 2] := by
  refine ⟨?_, ?_, ?_⟩ <;> decide

/-! ### C4: the individualization order of the target cell's members -/

/-- C4 counterexample.  The children list of a tree node is the target
cell's members sorted descending (`lib.rs` lines 40-41 and 134-135),
and the child loop consumes it with `Vec::pop`, last element first
(lines 91-94, modelled by `popOrder`); for members `{0, 1}` the
resulting individualization order is `[0, 1]`, not the descending
order `[1, 0]` the claim states. -/
theorem C4_counterexample :
    popOrder (sortDesc [0, 1]) = [0, 1] ∧ sortDesc [0, 1] = [1, 0] ∧
    popOrder (sortDesc [0, 1]) ≠ sortDesc [0, 1] := by
  refine ⟨?_, ?_, ?_⟩ <;> decide

/-- C4 as amended (proved): the members of the target cell are
individualized in ascending node-index order — the children list is
sorted descending and then popped from the end, so the visit order is
the ascending sort of the members. -/
theorem C4_amended_ascending_order (members : List Nat) :
    popOrder (sortDesc members) = sortAsc members := by
  rw [popOrder_eq_reverse]
  have hdesc : (sortDesc members).Sorted (· ≥ ·) :=
    List.sorted_insertionSort _ members
  have hps : (sortDesc members).reverse.Sorted (· ≤ ·) :=
    List.pairwise_reverse.mpr (hdesc.imp (fun hab => hab))
  have hperm : (sortDesc members).reverse.Perm (sortAsc members) :=
    ((sortDesc members).reverse_perm.trans
      (List.perm_insertionSort _ members)).trans
      (List.perm_insertionSort _ members).symm
  exact List.eq_of_perm_of_sorted hperm hps (sortAsc_sorted members)

/-! ### The observable effect of `individualize` and `split_cell` on the
cells vector -/

theorem getD_map_lt {α β : Type} (f : α → β) (l : List α) (i : Nat) (d : β)
    (d' : α) (h : i < l.length) : (l.map f).getD i d = f (l.getD i d') := by
  induction l generalizing i with
  | nil => simp at h
  | cons x xs ih =>
    cases i with
    | zero => rfl
    | succ n =>
      simp only [List.map_cons, List.getD_cons_succ]
      exact ih n (by simpa using h)

theorem map_insertAt {α β : Type} (f : α → β) (l : List α) (i : Nat) (a : α) :
    (insertAt l i a).map f = insertAt (l.map f) i (f a) := by
  induction l generalizing i with
  | nil => cases i <;> rfl
  | cons x xs ih =>
    cases i with
    | zero => rfl
    | succ n => simp [insertAt, ih]

theorem getD_mem_of_lt {α : Type} (l : List α) (i : Nat) (d : α)
    (h : i < l.length) : l.getD i d ∈ l := by
  rw [List.getD_eq_getElem l d h]
  exact List.getElem_mem h

theorem map_congr_listSet {α β : Type} (l : List α) (i : Nat) (f f' : α → β)
    (d : α) (hi : i < l.length) (hnd : l.Nodup)
    (hagree : ∀ x ∈ l, x ≠ l.getD i d → f' x = f x) :
    l.map f' = listSet (l.map f) i (f' (l.getD i d)) := by
  induction l generalizing i with
  | nil => simp at hi
  | cons x xs ih =>
    cases i with
    | zero =>
      simp only [List.map_cons, List.getD_cons_zero, listSet]
      congr 1
      apply List.map_congr_left
      intro y hy
      refine hagree y (List.mem_cons_of_mem x hy) ?_
      intro he
      simp only [List.getD_cons_zero] at he
      exact (List.nodup_cons.mp hnd).1 (he ▸ hy)
    | succ n =>
      simp only [List.map_cons, List.getD_cons_succ, listSet]
      congr 1
      · refine hagree x (List.mem_cons_self x xs) ?_
        intro he
        have hmem : xs.getD n d ∈ xs := getD_mem_of_lt xs n d (by simpa using hi)
        simp only [List.getD_cons_succ] at he
        exact (List.nodup_cons.mp hnd).1 (he ▸ hmem)
      · exact ih n (by simpa using hi) (List.nodup_cons.mp hnd).2
          (fun y hy => hagree y (List.mem_cons_of_mem x hy))

/-- The shared shape of `individualize` and `split_cell` on the cells
vector: replace the cell behind the aliased id `cellIds[i]` by `repl`
and insert the fresh cell `newCell` at index `i`. -/
theorem cellsList_replace_insert (C : Colouring) (i : Nat) (repl newCell : Cell)
    (hi : i < C.cellIds.length)
    (hids : ∀ id ∈ C.cellIds, id < C.arena.length)
    (hnd : C.cellIds.Nodup) :
    (insertAt C.cellIds i C.arena.length).map
      (fun id => (listSet C.arena (C.cellIds.getD i 0) repl ++ [newCell]).getD id default)
    = insertAt (listSet C.cellsList i repl) i newCell := by
  set oldId := C.cellIds.getD i 0 with holdId
  have hold_lt : oldId < C.arena.length :=
    hids oldId (holdId ▸ getD_mem_of_lt C.cellIds i 0 hi)
  rw [map_insertAt]
  have hnewv :
      (listSet C.arena oldId repl ++ [newCell]).getD C.arena.length default
        = newCell := by
    rw [List.getD_append_right _ _ _ _ (le_of_eq (listSet_length _ _ _))]
    rw [listSet_length]
    simp
  rw [hnewv]
  congr 1
  have hmain := map_congr_listSet C.cellIds i
      (fun id => C.arena.getD id default)
      (fun id => (listSet C.arena oldId repl ++ [newCell]).getD id default)
      0 hi hnd ?_
  · rw [hmain]
    unfold Colouring.cellsList
    congr 1
    rw [← holdId]
    show (listSet C.arena oldId repl ++ [newCell]).getD oldId default = repl
    rw [List.getD_append _ _ _ _ (by rw [listSet_length]; exact hold_lt)]
    exact getD_listSet_self _ _ _ _ hold_lt
  · intro id hid hne
    rw [← holdId] at hne
    show (listSet C.arena oldId repl ++ [newCell]).getD id default
        = C.arena.getD id default
    rw [List.getD_append _ _ _ _ (by rw [listSet_length]; exact hids id hid)]
    exact getD_listSet_ne _ _ _ _ _ hne

theorem cellsList_individualize (C : Colouring) (i n : Nat)
    (hi : i < C.cellIds.length)
    (hids : ∀ id ∈ C.cellIds, id < C.arena.length)
    (hnd : C.cellIds.Nodup) :
    (C.individualize i n).1.cellsList =
      insertAt
        (listSet C.cellsList i
          ⟨(C.cellAt i).color + 1, (C.cellAt i).members.filter (fun u => u != n)⟩)
        i ⟨(C.cellAt i).color, [n]⟩ :=
  cellsList_replace_insert C i _ _ hi hids hnd

theorem cellsList_split_cell (C : Colouring) (i : Nat) (s : List Nat)
    (hi : i < C.cellIds.length)
    (hids : ∀ id ∈ C.cellIds, id < C.arena.length)
    (hnd : C.cellIds.Nodup) :
    (C.split_cell i s).cellsList =
      insertAt
        (listSet C.cellsList i
          ⟨(C.cellAt i).color + s.length,
           (C.cellAt i).members.filter (fun u => !(s.contains u))⟩)
        i ⟨(C.cellAt i).color, setList s⟩ :=
  cellsList_replace_insert C i _ _ hi hids hnd

theorem cellsList_length (C : Colouring) :
    C.cellsList.length = C.cellIds.length := by
  simp [Colouring.cellsList]

theorem cellAt_eq_cellsList_getD (C : Colouring) (i : Nat)
    (h : i < C.cellIds.length) :
    C.cellAt i = C.cellsList.getD i default := by
  unfold Colouring.cellAt Colouring.cellsList
  rw [getD_map_lt _ _ _ _ 0 h]

/-! ### Batch `Vec` updates (the `for u in … { v[u] = x }` loops) -/

theorem foldl_listSet_length {α : Type} (s : List Nat) (l : List α) (v : α) :
    (s.foldl (fun acc u => listSet acc u v) l).length = l.length := by
  induction s generalizing l with
  | nil => rfl
  | cons x rest ih => simp [List.foldl_cons, ih, listSet_length]

theorem getD_foldl_listSet_not_mem {α : Type} (s : List Nat) (l : List α)
    (v : α) (u : Nat) (d : α) (hu : u ∉ s) :
    (s.foldl (fun acc x => listSet acc x v) l).getD u d = l.getD u d := by
  induction s generalizing l with
  | nil => rfl
  | cons x rest ih =>
    simp only [List.foldl_cons]
    rw [ih (listSet l x v) (fun hm => hu (List.mem_cons_of_mem x hm))]
    exact getD_listSet_ne l x u v d (fun he => hu (he ▸ List.mem_cons_self x rest))

theorem getD_foldl_listSet_mem {α : Type} (s : List Nat) (l : List α)
    (v : α) (u : Nat) (d : α) (hu : u ∈ s) (hlt : u < l.length) :
    (s.foldl (fun acc x => listSet acc x v) l).getD u d = v := by
  induction s generalizing l with
  | nil => simp at hu
  | cons x rest ih =>
    simp only [List.foldl_cons]
    by_cases hur : u ∈ rest
    · exact ih (listSet l x v) hur (by rw [listSet_length]; exact hlt)
    · have hux : u = x := by
        rcases List.mem_cons.mp hu with h | h
        · exact h
        · exact absurd h hur
      subst hux
      rw [getD_foldl_listSet_not_mem rest (listSet l u v) v u d hur]
      exact getD_listSet_self l u v d hlt

/-! ### C6: where newly created cells are placed in the cells vector -/

/-- C6 counterexample.  Individualizing node 1 out of the single cell
`{0, 1, 2}` of the uniform colouring on three nodes puts the new
singleton cell at index 0 of the cells vector (the index of the split
cell) and the shrunk original after it; the new cell is *not* appended
at the end, so `cells` is not in creation order. -/
theorem C6_counterexample :
    ((Colouring.new ⟨3, []⟩).individualize 0 1).1.cellsList
        = [⟨0, [1]⟩, ⟨1, [0, 2]⟩] ∧
    ((Colouring.new ⟨3, []⟩).individualize 0 1).1.cellsList.getLast?
        ≠ some ⟨0, [1]⟩ := by
  refine ⟨?_, ?_⟩ <;> decide

/-- C6 as amended (proved): each newly created cell (the singleton made
by `individualize`, the extracted subset made by `split_cell`) is
inserted into the cells vector at the index `cell_idx` of the cell it
was split from, with the shrunk original cell moving to `cell_idx + 1`
and all later cells shifting one place; cells are therefore kept in
split position (ascending colour) order, not creation order. -/
theorem C6_amended_insert_at_split_index (C : Colouring) (i n : Nat)
    (s : List Nat) (hi : i < C.cellIds.length)
    (hids : ∀ id ∈ C.cellIds, id < C.arena.length)
    (hnd : C.cellIds.Nodup) :
    ((C.individualize i n).1.cellsList.getD i default
        = ⟨(C.cellAt i).color, [n]⟩ ∧
      (C.individualize i n).1.cellsList.getD (i + 1) default
        = ⟨(C.cellAt i).color + 1,
           (C.cellAt i).members.filter (fun u => u != n)⟩ ∧
      (∀ j, j < i →
        (C.individualize i n).1.cellsList.getD j default
          = C.cellsList.getD j default) ∧
      (∀ j, i < j →
        (C.individualize i n).1.cellsList.getD (j + 1) default
          = C.cellsList.getD j default)) ∧
    ((C.split_cell i s).cellsList.getD i default
        = ⟨(C.cellAt i).color, setList s⟩ ∧
      (C.split_cell i s).cellsList.getD (i + 1) default
        = ⟨(C.cellAt i).color + s.length,
           (C.cellAt i).members.filter (fun u => !(s.contains u))⟩ ∧
      (∀ j, j < i →
        (C.split_cell i s).cellsList.getD j default
          = C.cellsList.getD j default) ∧
      (∀ j, i < j →
        (C.split_cell i s).cellsList.getD (j + 1) default
          = C.cellsList.getD j default)) := by
  have hiL : i < C.cellsList.length := by rw [cellsList_length]; exact hi
  have hiL' : i ≤ (listSet C.cellsList i
      (⟨(C.cellAt i).color + 1,
        (C.cellAt i).members.filter (fun u => u != n)⟩ : Cell)).length := by
    rw [listSet_length]; exact le_of_lt hiL
  constructor
  · rw [cellsList_individualize C i n hi hids hnd]
    refine ⟨?_, ?_, ?_, ?_⟩
    · exact getD_insertAt_self _ _ _ _ (by rw [listSet_length]; exact le_of_lt hiL)
    · rw [getD_insertAt_ge _ _ _ _ _ le_rfl]
      exact getD_listSet_self _ _ _ _ hiL
    · intro j hj
      rw [getD_insertAt_lt _ _ _ _ _ hj (by rw [listSet_length]; exact le_of_lt hiL)]
      exact getD_listSet_ne _ _ _ _ _ (Nat.ne_of_lt hj)
    · intro j hj
      rw [getD_insertAt_ge _ _ _ _ _ (le_of_lt hj)]
      exact getD_listSet_ne _ _ _ _ _ (Nat.ne_of_gt hj)
  · rw [cellsList_split_cell C i s hi hids hnd]
    refine ⟨?_, ?_, ?_, ?_⟩
    · exact getD_insertAt_self _ _ _ _ (by rw [listSet_length]; exact le_of_lt hiL)
    · rw [getD_insertAt_ge _ _ _ _ _ le_rfl]
      exact getD_listSet_self _ _ _ _ hiL
    · intro j hj
      rw [getD_insertAt_lt _ _ _ _ _ hj (by rw [listSet_length]; exact le_of_lt hiL)]
      exact getD_listSet_ne _ _ _ _ _ (Nat.ne_of_lt hj)
    · intro j hj
      rw [getD_insertAt_ge _ _ _ _ _ (le_of_lt hj)]
      exact getD_listSet_ne _ _ _ _ _ (Nat.ne_of_gt hj)

/-- Witness for the amended C6 at a concrete input. -/
theorem C6_amended_insert_at_split_index_witness :
    ((Colouring.new ⟨4, []⟩).individualize 0 2).1.cellsList.getD 0 default
      = ⟨0, [2]⟩ := by
  have h := C6_amended_insert_at_split_index (Colouring.new ⟨4, []⟩) 0 2 [1]
    (by decide) (by decide) (by decide)
  have h1 := h.1.1
  rw [h1]
  decide

/-! ### Projections of `individualize` and `split_cell`, and arena reads -/

theorem individualize_cellIds (C : Colouring) (i n : Nat) :
    (C.individualize i n).1.cellIds = insertAt C.cellIds i C.arena.length := rfl

theorem individualize_arena (C : Colouring) (i n : Nat) :
    (C.individualize i n).1.arena =
      listSet C.arena (C.cellIds.getD i 0)
        ⟨(C.cellAt i).color + 1, (C.cellAt i).members.filter (fun u => u != n)⟩
      ++ [⟨(C.cellAt i).color, [n]⟩] := rfl

theorem individualize_color_cell (C : Colouring) (i n : Nat) :
    (C.individualize i n).1.color_cell =
      mapInsert (mapMove C.color_cell (C.cellAt i).color ((C.cellAt i).color + 1))
        (C.cellAt i).color C.arena.length := rfl

theorem individualize_node_cell (C : Colouring) (i n : Nat) :
    (C.individualize i n).1.node_cell = listSet C.node_cell n C.arena.length := rfl

theorem individualize_node_color (C : Colouring) (i n : Nat) :
    (C.individualize i n).1.node_color =
      ((C.cellAt i).members.filter (fun u => u != n)).foldl
        (fun nc u => listSet nc u ((C.cellAt i).color + 1)) C.node_color := rfl

theorem individualize_snd (C : Colouring) (i n : Nat) :
    (C.individualize i n).2 = (C.cellAt i).color + 1 := rfl

theorem split_cell_cellIds (C : Colouring) (i : Nat) (s : List Nat) :
    (C.split_cell i s).cellIds = insertAt C.cellIds i C.arena.length := rfl

theorem split_cell_arena (C : Colouring) (i : Nat) (s : List Nat) :
    (C.split_cell i s).arena =
      listSet C.arena (C.cellIds.getD i 0)
        ⟨(C.cellAt i).color + s.length,
         (C.cellAt i).members.filter (fun u => !(s.contains u))⟩
      ++ [⟨(C.cellAt i).color, setList s⟩] := rfl

theorem split_cell_color_cell (C : Colouring) (i : Nat) (s : List Nat) :
    (C.split_cell i s).color_cell =
      mapInsert
        (mapMove C.color_cell (C.cellAt i).color ((C.cellAt i).color + s.length))
        (C.cellAt i).color C.arena.length := rfl

theorem split_cell_node_cell (C : Colouring) (i : Nat) (s : List Nat) :
    (C.split_cell i s).node_cell =
      s.foldl (fun acc u => listSet acc u C.arena.length) C.node_cell := rfl

theorem split_cell_node_color (C : Colouring) (i : Nat) (s : List Nat) :
    (C.split_cell i s).node_color =
      ((C.cellAt i).members.filter (fun u => !(s.contains u))).foldl
        (fun nc u => listSet nc u ((C.cellAt i).color + s.length)) C.node_color := rfl

/-- Reading the freshly appended cell out of the updated arena. -/
theorem getD_setArena_new (A : List Cell) (o : Nat) (r c : Cell) :
    (listSet A o r ++ [c]).getD A.length default = c := by
  rw [List.getD_append_right _ _ _ _ (le_of_eq (listSet_length _ _ _))]
  rw [listSet_length]
  simp

/-- Reading the replaced cell out of the updated arena. -/
theorem getD_setArena_old (A : List Cell) (o : Nat) (r c : Cell)
    (ho : o < A.length) : (listSet A o r ++ [c]).getD o default = r := by
  rw [List.getD_append _ _ _ _ (by rw [listSet_length]; exact ho)]
  exact getD_listSet_self _ _ _ _ ho

/-- Reading an untouched cell out of the updated arena. -/
theorem getD_setArena_other (A : List Cell) (o : Nat) (r c : Cell) (id : Nat)
    (hid : id < A.length) (hne : id ≠ o) :
    (listSet A o r ++ [c]).getD id default = A.getD id default := by
  rw [List.getD_append _ _ _ _ (by rw [listSet_length]; exact hid)]
  exact getD_listSet_ne _ _ _ _ _ hne

/-! ### Accessors for `WF` -/

theorem wf_node_color_length {C : Colouring} (h : WF C) :
    C.node_color.length = C.size := h.1

theorem wf_node_cell_length {C : Colouring} (h : WF C) :
    C.node_cell.length = C.size := h.2.1

theorem wf_ids_nodup {C : Colouring} (h : WF C) : C.cellIds.Nodup := h.2.2.1

theorem wf_ids_lt {C : Colouring} (h : WF C) :
    ∀ id ∈ C.cellIds, id < C.arena.length := h.2.2.2.1

theorem wf_cells {C : Colouring} (h : WF C) :
    ∀ cell ∈ C.cellsList, cell.members ≠ [] ∧ cell.members.Sorted (· < ·) ∧
      ∀ u ∈ cell.members, u < C.size := h.2.2.2.2.1

theorem packedB_iff (L : List Cell) :
    packedB L = true ↔
      List.Chain' (fun a b => a.color + a.members.length ≤ b.color) L := by
  induction L with
  | nil => simp [packedB]
  | cons a rest ih =>
    cases rest with
    | nil => simp [packedB]
    | cons b rest2 =>
      rw [List.chain'_cons, ← ih]
      simp [packedB]

theorem wf_packed {C : Colouring} (h : WF C) :
    List.Chain' (fun a b => a.color + a.members.length ≤ b.color) C.cellsList :=
  (packedB_iff _).mp h.2.2.2.2.2.1

theorem wf_members_sorted {C : Colouring} (h : WF C) :
    sortAsc (C.cellsList.map Cell.members).flatten = List.range C.size :=
  h.2.2.2.2.2.2.1

theorem wf_members_perm {C : Colouring} (h : WF C) :
    (C.cellsList.map Cell.members).flatten.Perm (List.range C.size) := by
  rw [← wf_members_sorted h]
  exact (sortAsc_perm _).symm

theorem wf_node_color_spec {C : Colouring} (h : WF C) :
    ∀ i < C.cellIds.length, ∀ u ∈ (C.cellAt i).members,
      C.node_color.getD u 0 = (C.cellAt i).color := h.2.2.2.2.2.2.2.1

theorem wf_keys_nodup {C : Colouring} (h : WF C) :
    (mapKeys C.color_cell).Nodup := h.2.2.2.2.2.2.2.2.1

theorem wf_entries {C : Colouring} (h : WF C) :
    ∀ p ∈ C.color_cell, p.2 ∈ C.cellIds ∧
      (C.arena.getD p.2 default).color = p.1 := h.2.2.2.2.2.2.2.2.2.1

theorem wf_lookup {C : Colouring} (h : WF C) :
    ∀ id ∈ C.cellIds, mapGet? C.color_cell ((C.arena.getD id default).color)
      = some id := h.2.2.2.2.2.2.2.2.2.2

theorem cellAt_mem_cellsList {C : Colouring} {i : Nat}
    (h : i < C.cellIds.length) : C.cellAt i ∈ C.cellsList := by
  rw [cellAt_eq_cellsList_getD C i h]
  exact getD_mem_of_lt _ _ _ (by rw [cellsList_length]; exact h)

theorem wf_color_lookup_at {C : Colouring} (h : WF C) {i : Nat}
    (hi : i < C.cellIds.length) :
    mapGet? C.color_cell (C.cellAt i).color = some (C.cellIds.getD i 0) :=
  wf_lookup h (C.cellIds.getD i 0) (getD_mem_of_lt _ _ _ hi)

/-! ### C7: the contract of `individualize` -/

/-- C7 (confirmed).  Under the stated preconditions, `individualize`
creates the singleton `{node}` with the old colour `c0` (placed at
`cell_idx`, readable through `color_of_cell[c0]`), relabels the
remaining members of the original cell with `c0 + 1` (both in the cell
and in `color_of_node`), moves the `color_of_cell` entry for `c0` to
`c0 + 1`, registers the singleton at `c0`, points `cell_of_node[node]`
at the singleton, and returns `c0 + 1`. -/
theorem C7_individualize_contract (C : Colouring) (i n : Nat)
    (hwf : WF C) (hi : i < C.cellIds.length)
    (hmem : n ∈ (C.cellAt i).members)
    (_hlen : 1 < (C.cellAt i).members.length) :
    (C.individualize i n).2 = (C.cellAt i).color + 1 ∧
    (C.individualize i n).1.cellAt i = ⟨(C.cellAt i).color, [n]⟩ ∧
    (C.individualize i n).1.cellAt (i + 1)
      = ⟨(C.cellAt i).color + 1,
         (C.cellAt i).members.filter (fun u => u != n)⟩ ∧
    mapGet? (C.individualize i n).1.color_cell (C.cellAt i).color
      = some C.arena.length ∧
    (C.individualize i n).1.arena.getD C.arena.length default
      = ⟨(C.cellAt i).color, [n]⟩ ∧
    mapGet? (C.individualize i n).1.color_cell ((C.cellAt i).color + 1)
      = some (C.cellIds.getD i 0) ∧
    (C.individualize i n).1.arena.getD (C.cellIds.getD i 0) default
      = ⟨(C.cellAt i).color + 1,
         (C.cellAt i).members.filter (fun u => u != n)⟩ ∧
    (C.individualize i n).1.node_cell.getD n 0 = C.arena.length ∧
    (C.individualize i n).1.node_color.getD n 0 = (C.cellAt i).color ∧
    (∀ u ∈ (C.cellAt i).members, u ≠ n →
      (C.individualize i n).1.node_color.getD u 0 = (C.cellAt i).color + 1) := by
  have hids := wf_ids_lt hwf
  have hnd := wf_ids_nodup hwf
  have hiL : i < C.cellsList.length := by rw [cellsList_length]; exact hi
  have hlen' : (C.individualize i n).1.cellIds.length = C.cellIds.length + 1 := by
    rw [individualize_cellIds, insertAt_length]
  have hcells := cellsList_individualize C i n hi hids hnd
  have hn_size : n < C.size := ((wf_cells hwf _ (cellAt_mem_cellsList hi)).2.2) n hmem
  refine ⟨rfl, ?_, ?_, ?_, ?_, ?_, ?_, ?_, ?_, ?_⟩
  · rw [cellAt_eq_cellsList_getD _ i (by omega), hcells]
    exact getD_insertAt_self _ _ _ _ (by rw [listSet_length]; omega)
  · rw [cellAt_eq_cellsList_getD _ (i + 1) (by omega), hcells]
    rw [getD_insertAt_ge _ _ _ _ _ le_rfl]
    exact getD_listSet_self _ _ _ _ hiL
  · rw [individualize_color_cell]
    exact mapGet?_mapInsert_self _ _ _
  · rw [individualize_arena]
    exact getD_setArena_new _ _ _ _
  · rw [individualize_color_cell]
    rw [mapGet?_mapInsert_ne _ _ _ _ (by omega)]
    rw [mapMove, wf_color_lookup_at hwf hi]
    exact mapGet?_mapInsert_self _ _ _
  · rw [individualize_arena]
    exact getD_setArena_old _ _ _ _
      (hids _ (getD_mem_of_lt _ _ _ hi))
  · rw [individualize_node_cell]
    exact getD_listSet_self _ _ _ _ (by rw [wf_node_cell_length hwf]; exact hn_size)
  · rw [individualize_node_color]
    rw [getD_foldl_listSet_not_mem _ _ _ _ _ (by simp)]
    exact wf_node_color_spec hwf i hi n hmem
  · intro u hu hune
    rw [individualize_node_color]
    have hu_size : u < C.size := ((wf_cells hwf _ (cellAt_mem_cellsList hi)).2.2) u hu
    refine getD_foldl_listSet_mem _ _ _ _ _ ?_ ?_
    · simp only [List.mem_filter, bne_iff_ne, ne_eq, decide_eq_true_eq]
      exact ⟨hu, by simpa using hune⟩
    · rw [wf_node_color_length hwf]
      exact hu_size

/-- Witness for C7 at a concrete input: individualize node 1 out of the
uniform colouring of three isolated nodes. -/
theorem C7_individualize_contract_witness :
    ((Colouring.new ⟨3, []⟩).individualize 0 1).2
      = ((Colouring.new ⟨3, []⟩).cellAt 0).color + 1 :=
  (C7_individualize_contract (Colouring.new ⟨3, []⟩) 0 1
    (by decide) (by decide) (by decide) (by decide)).1

/-! ### C5: the contract of `split_cell` -/

/-- C5 counterexample.  `split_cell` in the source has no return
expression — its value is `()` — so it cannot return the original
cell's new colour: two calls whose claimed return values
`c0 + |subset|` differ (here 1 and 2) have equal actual return
values. -/
theorem C5_counterexample :
    Colouring.split_cell_ret (Colouring.new ⟨3, []⟩) 0 [0]
        = Colouring.split_cell_ret (Colouring.new ⟨4, []⟩) 0 [0, 1] ∧
    ((Colouring.new ⟨3, []⟩).cellAt 0).color + [0].length
        ≠ ((Colouring.new ⟨4, []⟩).cellAt 0).color + [0, 1].length :=
  ⟨rfl, by decide⟩

/-- C5 as amended (proved).  Under the stated preconditions,
`split_cell` creates a new cell with members = `subset` (as a set) and
colour `c0`, placed at `cell_idx` and registered at `c0` in
`color_of_cell`; removes `subset` from the original cell and sets the
original cell's colour to `c0 + |subset|`, moving its `color_of_cell`
entry there; updates `cell_of_node` for the extracted members and
`color_of_node` for the remaining ones.  It returns no value (the Rust
function's return type is `()`); the original cell's new colour
`c0 + |subset|` is only readable from the updated state. -/
theorem C5_split_cell_contract (C : Colouring) (i : Nat) (s : List Nat)
    (hwf : WF C) (hi : i < C.cellIds.length)
    (hsub : ∀ u ∈ s, u ∈ (C.cellAt i).members)
    (hne : s ≠ [])
    (_hproper : ∃ u ∈ (C.cellAt i).members, u ∉ s) :
    (C.split_cell i s).cellAt i = ⟨(C.cellAt i).color, setList s⟩ ∧
    (∀ u, u ∈ setList s ↔ u ∈ s) ∧
    (C.split_cell i s).cellAt (i + 1)
      = ⟨(C.cellAt i).color + s.length,
         (C.cellAt i).members.filter (fun u => !(s.contains u))⟩ ∧
    mapGet? (C.split_cell i s).color_cell (C.cellAt i).color
      = some C.arena.length ∧
    (C.split_cell i s).arena.getD C.arena.length default
      = ⟨(C.cellAt i).color, setList s⟩ ∧
    mapGet? (C.split_cell i s).color_cell ((C.cellAt i).color + s.length)
      = some (C.cellIds.getD i 0) ∧
    (C.split_cell i s).arena.getD (C.cellIds.getD i 0) default
      = ⟨(C.cellAt i).color + s.length,
         (C.cellAt i).members.filter (fun u => !(s.contains u))⟩ ∧
    (∀ u ∈ s, (C.split_cell i s).node_cell.getD u 0 = C.arena.length) ∧
    (∀ u ∈ (C.cellAt i).members, u ∉ s →
      (C.split_cell i s).node_color.getD u 0 = (C.cellAt i).color + s.length) ∧
    (∀ u ∈ s, (C.split_cell i s).node_color.getD u 0 = (C.cellAt i).color) ∧
    Colouring.split_cell_ret C i s = () := by
  have hids := wf_ids_lt hwf
  have hnd := wf_ids_nodup hwf
  have hiL : i < C.cellsList.length := by rw [cellsList_length]; exact hi
  have hcells := cellsList_split_cell C i s hi hids hnd
  have hslen : 0 < s.length := List.length_pos.mpr hne
  have hsize : ∀ u ∈ s, u < C.size := fun u hu =>
    ((wf_cells hwf _ (cellAt_mem_cellsList hi)).2.2) u (hsub u hu)
  have hlen' : (C.split_cell i s).cellIds.length = C.cellIds.length + 1 := by
    rw [split_cell_cellIds, insertAt_length]
  refine ⟨?_, setList_mem s, ?_, ?_, ?_, ?_, ?_, ?_, ?_, ?_, rfl⟩
  · rw [cellAt_eq_cellsList_getD _ i (by omega), hcells]
    exact getD_insertAt_self _ _ _ _ (by rw [listSet_length]; omega)
  · rw [cellAt_eq_cellsList_getD _ (i + 1) (by omega), hcells]
    rw [getD_insertAt_ge _ _ _ _ _ le_rfl]
    exact getD_listSet_self _ _ _ _ hiL
  · rw [split_cell_color_cell]
    exact mapGet?_mapInsert_self _ _ _
  · rw [split_cell_arena]
    exact getD_setArena_new _ _ _ _
  · rw [split_cell_color_cell]
    rw [mapGet?_mapInsert_ne _ _ _ _ (by omega)]
    rw [mapMove, wf_color_lookup_at hwf hi]
    exact mapGet?_mapInsert_self _ _ _
  · rw [split_cell_arena]
    exact getD_setArena_old _ _ _ _ (hids _ (getD_mem_of_lt _ _ _ hi))
  · intro u hu
    rw [split_cell_node_cell]
    exact getD_foldl_listSet_mem _ _ _ _ _ hu
      (by rw [wf_node_cell_length hwf]; exact hsize u hu)
  · intro u hu hus
    rw [split_cell_node_color]
    refine getD_foldl_listSet_mem _ _ _ _ _ ?_ ?_
    · simp only [List.mem_filter, Bool.not_eq_true']
      exact ⟨hu, by simpa using hus⟩
    · rw [wf_node_color_length hwf]
      exact ((wf_cells hwf _ (cellAt_mem_cellsList hi)).2.2) u hu
  · intro u hu
    rw [split_cell_node_color]
    rw [getD_foldl_listSet_not_mem]
    · exact wf_node_color_spec hwf i hi u (hsub u hu)
    · simp only [List.mem_filter, Bool.not_eq_true']
      rintro ⟨-, habs⟩
      simp at habs
      exact habs hu

/-- Witness for the amended C5 at a concrete input: split `{0}` out of
the uniform colouring of three isolated nodes. -/
theorem C5_split_cell_contract_witness :
    ((Colouring.new ⟨3, []⟩).split_cell 0 [0]).cellAt 0
      = ⟨((Colouring.new ⟨3, []⟩).cellAt 0).color, setList [0]⟩ :=
  (C5_split_cell_contract (Colouring.new ⟨3, []⟩) 0 [0]
    (by decide) (by decide) (by decide) (by decide)
    ⟨1, by decide, by decide⟩).1

/-! ### C3: worklist pushes and trace appends of the refiner's split loop -/

theorem mem_insertAt {α : Type} {l : List α} {i : Nat} {a x : α}
    (h : x ∈ insertAt l i a) : x = a ∨ x ∈ l := by
  induction l generalizing i with
  | nil =>
    cases i with
    | zero =>
      simp only [insertAt, List.mem_singleton] at h
      exact Or.inl h
    | succ n =>
      simp only [insertAt, List.mem_singleton] at h
      exact Or.inl h
  | cons y ys ih =>
    cases i with
    | zero =>
      simp only [insertAt, List.mem_cons] at h
      rcases h with h | h | h
      · exact Or.inl h
      · exact Or.inr (by simp [h])
      · exact Or.inr (by simp [h])
    | succ n =>
      simp only [insertAt, List.mem_cons] at h
      rcases h with h | h
      · exact Or.inr (by simp [h])
      · rcases ih h with h2 | h2
        · exact Or.inl h2
        · exact Or.inr (List.mem_cons_of_mem y h2)

theorem split_cell_cellAt_self (C : Colouring) (i : Nat) (s : List Nat)
    (hi : i ≤ C.cellIds.length) :
    (C.split_cell i s).cellAt i = ⟨(C.cellAt i).color, setList s⟩ := by
  show (C.split_cell i s).arena.getD ((C.split_cell i s).cellIds.getD i 0) default = _
  rw [split_cell_cellIds, split_cell_arena, getD_insertAt_self _ _ _ _ hi]
  exact getD_setArena_new _ _ _ _

theorem split_cell_cellAt_succ (C : Colouring) (i : Nat) (s : List Nat)
    (hi : i < C.cellIds.length)
    (hids : ∀ id ∈ C.cellIds, id < C.arena.length) :
    (C.split_cell i s).cellAt (i + 1)
      = ⟨(C.cellAt i).color + s.length,
         (C.cellAt i).members.filter (fun u => !(s.contains u))⟩ := by
  show (C.split_cell i s).arena.getD ((C.split_cell i s).cellIds.getD (i + 1) 0) default = _
  rw [split_cell_cellIds, split_cell_arena, getD_insertAt_ge _ _ _ _ _ le_rfl]
  exact getD_setArena_old _ _ _ _ (hids _ (getD_mem_of_lt _ _ _ hi))

theorem split_cell_ids_lt (C : Colouring) (i : Nat) (s : List Nat)
    (hids : ∀ id ∈ C.cellIds, id < C.arena.length) :
    ∀ id ∈ (C.split_cell i s).cellIds, id < (C.split_cell i s).arena.length := by
  intro id hid
  rw [split_cell_cellIds] at hid
  rw [split_cell_arena, List.length_append, listSet_length,
    List.length_singleton]
  rcases mem_insertAt hid with h | h
  · omega
  · have := hids id h
    omega

theorem split_cell_cellIds_length (C : Colouring) (i : Nat) (s : List Nat) :
    (C.split_cell i s).cellIds.length = C.cellIds.length + 1 := by
  rw [split_cell_cellIds, insertAt_length]

/-- C3 counterexample.  One iteration of the refiner's split loop on
the uniform colouring of three isolated nodes, extracting the bucket
`{0}` (`coloring.rs` lines 371-387, embedded as `splitBuckets`): the
colour pushed onto the worklist is 0 (the extracted cell's colour, i.e.
the cell's colour before the split) while the colour appended to the
trace is 1 (the shrunk residual's new colour) — not the same colour. -/
theorem C3_counterexample :
    (Colouring.splitBuckets (Colouring.new ⟨3, []⟩) 0 [[0]]).2.2.1 = [0] ∧
    (Colouring.splitBuckets (Colouring.new ⟨3, []⟩) 0 [[0]]).2.2.2 = [1] ∧
    (Colouring.splitBuckets (Colouring.new ⟨3, []⟩) 0 [[0]]).2.2.1
      ≠ (Colouring.splitBuckets (Colouring.new ⟨3, []⟩) 0 [[0]]).2.2.2 := by
  refine ⟨?_, ?_, ?_⟩ <;> decide

/-- C3 as amended (proved).  In the refiner's split loop over the
ascending-degree buckets (all but the highest-degree one), each
two-way split at the running index extracts its bucket via
`split_cell`; the colour pushed onto the worklist `W` is the extracted
cell's colour — the cell's colour *before* that split — while the
colour appended to the trace is the residual's new colour, which
exceeds the pushed colour by the bucket size.  The pushes chain: the
first worklist push is the touched cell's colour as found, and each
later push equals the previous trace append.  The two sequences are
never equal entrywise for a non-empty bucket. -/
theorem C3_splitBuckets_contract (bs : List (List Nat)) (C : Colouring) (i : Nat)
    (hi : i < C.cellIds.length)
    (hids : ∀ id ∈ C.cellIds, id < C.arena.length) :
    (Colouring.splitBuckets C i bs).2.1 = i + bs.length ∧
    (Colouring.splitBuckets C i bs).2.2.1.length = bs.length ∧
    (Colouring.splitBuckets C i bs).2.2.2.length = bs.length ∧
    (∀ j, j < bs.length →
      (Colouring.splitBuckets C i bs).2.2.2.getD j 0
        = (Colouring.splitBuckets C i bs).2.2.1.getD j 0 + (bs.getD j []).length) ∧
    (bs ≠ [] → (Colouring.splitBuckets C i bs).2.2.1.getD 0 0 = (C.cellAt i).color) ∧
    (∀ j, j + 1 < bs.length →
      (Colouring.splitBuckets C i bs).2.2.1.getD (j + 1) 0
        = (Colouring.splitBuckets C i bs).2.2.2.getD j 0) := by
  induction bs generalizing C i with
  | nil =>
    refine ⟨by simp [Colouring.splitBuckets], rfl, rfl, ?_, ?_, ?_⟩
    · intro j hj
      simp at hj
    · intro h
      exact absurd rfl h
    · intro j hj
      simp at hj
  | cons h rest ih =>
    have hAt_i := split_cell_cellAt_self C i h (le_of_lt hi)
    have hAt_i1 := split_cell_cellAt_succ C i h hi hids
    have hi' : i + 1 < (C.split_cell i h).cellIds.length := by
      rw [split_cell_cellIds_length]
      omega
    have hids' := split_cell_ids_lt C i h hids
    obtain ⟨ih1, ih2, ih3, ih4, ih5, ih6⟩ := ih (C.split_cell i h) (i + 1) hi' hids'
    have hstep :
        Colouring.splitBuckets C i (h :: rest)
          = ((Colouring.splitBuckets (C.split_cell i h) (i + 1) rest).1,
             (Colouring.splitBuckets (C.split_cell i h) (i + 1) rest).2.1,
             ((C.split_cell i h).cellAt i).color
               :: (Colouring.splitBuckets (C.split_cell i h) (i + 1) rest).2.2.1,
             ((C.split_cell i h).cellAt (i + 1)).color
               :: (Colouring.splitBuckets (C.split_cell i h) (i + 1) rest).2.2.2) := rfl
    rw [hstep]
    refine ⟨?_, ?_, ?_, ?_, ?_, ?_⟩
    · simp only [List.length_cons]
      omega
    · simp only [List.length_cons, ih2]
    · simp only [List.length_cons, ih3]
    · intro j hj
      cases j with
      | zero =>
        simp only [List.getD_cons_zero, hAt_i, hAt_i1]
      | succ m =>
        simp only [List.getD_cons_succ]
        exact ih4 m (by simpa using hj)
    · intro _
      simp only [List.getD_cons_zero, hAt_i]
    · intro j hj
      cases j with
      | zero =>
        simp only [List.getD_cons_zero, List.getD_cons_succ]
        rw [ih5 (by rintro rfl; simp at hj)]
      | succ m =>
        simp only [List.getD_cons_succ]
        exact ih6 m (by simpa using hj)

/-- Witness for the amended C3 at a concrete input. -/
theorem C3_splitBuckets_contract_witness :
    (Colouring.splitBuckets (Colouring.new ⟨3, []⟩) 0 [[0]]).2.2.1.getD 0 0
      = ((Colouring.new ⟨3, []⟩).cellAt 0).color :=
  (C3_splitBuckets_contract [[0]] (Colouring.new ⟨3, []⟩) 0
    (by decide) (by decide)).2.2.2.2.1 (by decide)

/-! ### Take/drop decompositions of the cell-vector operations -/

theorem insertAt_eq_take_drop {α : Type} (l : List α) (i : Nat) (a : α)
    (h : i ≤ l.length) : insertAt l i a = l.take i ++ a :: l.drop i := by
  induction l generalizing i with
  | nil =>
    have : i = 0 := by simpa using h
    subst this
    rfl
  | cons x xs ih =>
    cases i with
    | zero => rfl
    | succ n =>
      simp only [insertAt, List.take_succ_cons, List.drop_succ_cons,
        List.cons_append, List.cons.injEq, true_and]
      exact ih n (by simpa using h)

theorem listSet_eq_take_drop {α : Type} (l : List α) (i : Nat) (a : α)
    (h : i < l.length) : listSet l i a = l.take i ++ a :: l.drop (i + 1) := by
  induction l generalizing i with
  | nil => simp at h
  | cons x xs ih =>
    cases i with
    | zero => rfl
    | succ n =>
      simp only [listSet, List.take_succ_cons, List.drop_succ_cons,
        List.cons_append, List.cons.injEq, true_and]
      exact ih n (by simpa using h)

theorem insert_listSet_decomp {α : Type} (l : List α) (i : Nat) (c r : α)
    (h : i < l.length) :
    insertAt (listSet l i r) i c = l.take i ++ c :: r :: l.drop (i + 1) := by
  rw [listSet_eq_take_drop l i r h]
  have hlen : (l.take i).length = i := by
    rw [List.length_take]
    omega
  rw [insertAt_eq_take_drop _ i c
    (by rw [List.length_append, hlen]; omega)]
  have h1 : (l.take i ++ r :: l.drop (i + 1)).take i = l.take i := by
    rw [List.take_append_of_le_length (le_of_eq hlen.symm)]
    exact List.take_of_length_le (le_of_eq hlen)
  have h2 : (l.take i ++ r :: l.drop (i + 1)).drop i = r :: l.drop (i + 1) := by
    rw [List.drop_append_of_le_length (le_of_eq hlen.symm)]
    rw [List.drop_of_length_le (le_of_eq hlen)]
    rfl
  rw [h1, h2]

theorem take_getD_drop {α : Type} (l : List α) (i : Nat) (d : α)
    (h : i < l.length) : l = l.take i ++ l.getD i d :: l.drop (i + 1) := by
  conv_lhs => rw [← List.take_append_drop i l]
  congr 1
  rw [List.getD_eq_getElem l d h]
  exact List.drop_eq_getElem_cons h

theorem cellsList_split_cell_decomp (C : Colouring) (i : Nat) (s : List Nat)
    (hi : i < C.cellIds.length)
    (hids : ∀ id ∈ C.cellIds, id < C.arena.length)
    (hnd : C.cellIds.Nodup) :
    (C.split_cell i s).cellsList =
      C.cellsList.take i
        ++ (⟨(C.cellAt i).color, setList s⟩ : Cell)
        :: (⟨(C.cellAt i).color + s.length,
            (C.cellAt i).members.filter (fun u => !(s.contains u))⟩ : Cell)
        :: C.cellsList.drop (i + 1) := by
  rw [cellsList_split_cell C i s hi hids hnd]
  exact insert_listSet_decomp _ _ _ _ (by rw [cellsList_length]; exact hi)

theorem cellsList_individualize_decomp (C : Colouring) (i n : Nat)
    (hi : i < C.cellIds.length)
    (hids : ∀ id ∈ C.cellIds, id < C.arena.length)
    (hnd : C.cellIds.Nodup) :
    (C.individualize i n).1.cellsList =
      C.cellsList.take i
        ++ (⟨(C.cellAt i).color, [n]⟩ : Cell)
        :: (⟨(C.cellAt i).color + 1,
            (C.cellAt i).members.filter (fun u => u != n)⟩ : Cell)
        :: C.cellsList.drop (i + 1) := by
  rw [cellsList_individualize C i n hi hids hnd]
  exact insert_listSet_decomp _ _ _ _ (by rw [cellsList_length]; exact hi)

theorem cellsList_decomp (C : Colouring) (i : Nat)
    (hi : i < C.cellIds.length) :
    C.cellsList
      = C.cellsList.take i ++ C.cellAt i :: C.cellsList.drop (i + 1) := by
  rw [cellAt_eq_cellsList_getD C i hi]
  exact take_getD_drop _ _ _ (by rw [cellsList_length]; exact hi)

/-! ### The packed-colour chain under a two-way split -/

theorem chain'_split_pair (T D : List Cell) (old c r : Cell)
    (hch : List.Chain' (fun a b => a.color + a.members.length ≤ b.color)
      (T ++ old :: D))
    (hc : c.color = old.color)
    (hcr : c.color + c.members.length ≤ r.color)
    (hr : r.color + r.members.length ≤ old.color + old.members.length) :
    List.Chain' (fun a b => a.color + a.members.length ≤ b.color)
      (T ++ c :: r :: D) := by
  rw [List.chain'_append] at hch ⊢
  obtain ⟨hT, hoD, hbd⟩ := hch
  rw [List.chain'_cons'] at hoD
  obtain ⟨hhead, hD⟩ := hoD
  refine ⟨hT, ?_, ?_⟩
  · rw [List.chain'_cons]
    refine ⟨hcr, ?_⟩
    rw [List.chain'_cons']
    refine ⟨?_, hD⟩
    intro y hy
    have := hhead y hy
    omega
  · intro x hx y hy
    simp only [List.head?_cons, Option.mem_def, Option.some.injEq] at hy
    subst hy
    have := hbd x hx old (by simp)
    omega

theorem packed_between (L : List Cell) (d : Cell)
    (hch : List.Chain' (fun a b => a.color + a.members.length ≤ b.color) L)
    (hne : ∀ cell ∈ L, cell.members ≠ []) :
    ∀ j k, j < k → k < L.length →
      (L.getD j d).color + (L.getD j d).members.length ≤ (L.getD k d).color := by
  intro j k hjk hk
  induction k with
  | zero => omega
  | succ m ih =>
    have hstep : (L.getD m d).color + (L.getD m d).members.length
        ≤ (L.getD (m + 1) d).color := by
      rw [List.chain'_iff_get] at hch
      have := hch m (by omega)
      rw [List.getD_eq_getElem L d (by omega : m < L.length),
        List.getD_eq_getElem L d (by omega : m + 1 < L.length)]
      simpa [List.get_eq_getElem] using this
    rcases Nat.lt_or_ge j m with hjm | hjm
    · have hmem : L.getD m d ∈ L := getD_mem_of_lt L m d (by omega)
      have hpos : (L.getD m d).members.length ≠ 0 :=
        fun h0 => hne _ hmem (List.length_eq_zero.mp h0)
      have := ih hjm (by omega)
      omega
    · have : j = m := by omega
      subst this
      exact hstep

theorem packed_color_lt (L : List Cell) (d : Cell)
    (hch : List.Chain' (fun a b => a.color + a.members.length ≤ b.color) L)
    (hne : ∀ cell ∈ L, cell.members ≠ []) :
    ∀ j k, j < k → k < L.length → (L.getD j d).color < (L.getD k d).color := by
  intro j k hjk hk
  have h := packed_between L d hch hne j k hjk hk
  have hmem : L.getD j d ∈ L := getD_mem_of_lt L j d (by omega)
  have hpos : (L.getD j d).members.length ≠ 0 :=
    fun h0 => hne _ hmem (List.length_eq_zero.mp h0)
  omega

theorem packed_color_inj (L : List Cell) (d : Cell)
    (hch : List.Chain' (fun a b => a.color + a.members.length ≤ b.color) L)
    (hne : ∀ cell ∈ L, cell.members ≠ []) :
    ∀ j k, j < L.length → k < L.length →
      (L.getD j d).color = (L.getD k d).color → j = k := by
  intro j k hj hk he
  rcases Nat.lt_trichotomy j k with h | h | h
  · have := packed_color_lt L d hch hne j k h hk
    omega
  · exact h
  · have := packed_color_lt L d hch hne k j h hj
    omega

/-! ### Further container lemmas for the invariant preservation proofs -/

theorem insertAt_perm {α : Type} (l : List α) (i : Nat) (a : α) :
    (insertAt l i a).Perm (a :: l) := by
  induction l generalizing i with
  | nil => cases i <;> rfl
  | cons x xs ih =>
    cases i with
    | zero => rfl
    | succ n =>
      show (x :: insertAt xs n a).Perm (a :: x :: xs)
      exact ((ih n).cons x).trans (List.Perm.swap a x xs)

theorem nodup_insertAt {α : Type} {l : List α} {i : Nat} {a : α}
    (hnd : l.Nodup) (ha : a ∉ l) : (insertAt l i a).Nodup :=
  ((insertAt_perm l i a).nodup_iff).mpr (List.nodup_cons.mpr ⟨ha, hnd⟩)

theorem mem_insertAt_of_mem {α : Type} {l : List α} (i : Nat) (a : α) {x : α}
    (h : x ∈ l) : x ∈ insertAt l i a :=
  ((insertAt_perm l i a).mem_iff).mpr (List.mem_cons_of_mem a h)

theorem self_mem_insertAt {α : Type} (l : List α) (i : Nat) (a : α) :
    a ∈ insertAt l i a :=
  ((insertAt_perm l i a).mem_iff).mpr (List.mem_cons_self a l)

theorem mem_mapInsert {α : Type} {m : List (Nat × α)} {k : Nat} {v : α}
    {p : Nat × α} (hnd : (mapKeys m).Nodup) (h : p ∈ mapInsert m k v) :
    p = (k, v) ∨ (p ∈ m ∧ p.1 ≠ k) := by
  induction m with
  | nil => simp only [mapInsert, List.mem_singleton] at h; exact Or.inl h
  | cons q rest ih =>
    simp only [mapKeys, List.map_cons, List.nodup_cons] at hnd
    by_cases hq : q.1 = k
    · simp only [mapInsert, if_pos hq, List.mem_cons] at h
      rcases h with h | h
      · exact Or.inl h
      · refine Or.inr ⟨List.mem_cons_of_mem q h, ?_⟩
        intro hp
        exact hnd.1 (by rw [hq, ← hp]; exact List.mem_map_of_mem Prod.fst h)
    · simp only [mapInsert, if_neg hq, List.mem_cons] at h
      rcases h with h | h
      · subst h
        exact Or.inr ⟨List.mem_cons_self _ _, hq⟩
      · rcases ih hnd.2 h with h2 | h2
        · exact Or.inl h2
        · exact Or.inr ⟨List.mem_cons_of_mem q h2.1, h2.2⟩

theorem mem_mapRemove {α : Type} {m : List (Nat × α)} {k : Nat}
    {p : Nat × α} (hnd : (mapKeys m).Nodup) (h : p ∈ mapRemove m k) :
    p ∈ m ∧ p.1 ≠ k := by
  induction m with
  | nil => simp [mapRemove] at h
  | cons q rest ih =>
    simp only [mapKeys, List.map_cons, List.nodup_cons] at hnd
    by_cases hq : q.1 = k
    · simp only [mapRemove, if_pos hq] at h
      refine ⟨List.mem_cons_of_mem q h, ?_⟩
      intro hpk
      exact hnd.1 (by rw [hq, ← hpk]; exact List.mem_map_of_mem Prod.fst h)
    · simp only [mapRemove, if_neg hq, List.mem_cons] at h
      rcases h with h | h
      · subst h
        exact ⟨List.mem_cons_self _ _, hq⟩
      · obtain ⟨h1, h2⟩ := ih hnd.2 h
        exact ⟨List.mem_cons_of_mem q h1, h2⟩

theorem sortAsc_congr_perm {l l' : List Nat} (h : l.Perm l') :
    sortAsc l = sortAsc l' := by
  refine List.eq_of_perm_of_sorted ?_ (sortAsc_sorted l) (sortAsc_sorted l')
  exact (sortAsc_perm l).trans (h.trans (sortAsc_perm l').symm)

theorem count_filter_not_contains (s mem : List Nat) (a : Nat) (ha : a ∉ s) :
    (mem.filter (fun u => !(s.contains u))).count a = mem.count a := by
  induction mem with
  | nil => rfl
  | cons x rest ih =>
    rw [List.filter_cons]
    by_cases hx : (!(s.contains x)) = true
    · rw [if_pos hx, List.count_cons, List.count_cons, ih]
    · rw [if_neg hx, ih, List.count_cons]
      have hax : ¬(x = a) := by
        intro he
        subst he
        simp at hx
        exact ha hx
      simp [hax]

/-- Extracting a duplicate-free subset out of a duplicate-free member
list is a permutation: `subset ++ (members minus subset) ~ members`. -/
theorem perm_extract_sub (mem s : List Nat) (hmem_nd : mem.Nodup)
    (hs_nd : s.Nodup) (hsub : ∀ u ∈ s, u ∈ mem) :
    (s ++ mem.filter (fun u => !(s.contains u))).Perm mem := by
  rw [List.perm_iff_count]
  intro a
  rw [List.count_append]
  by_cases ha : a ∈ s
  · rw [List.count_eq_one_of_mem hs_nd ha]
    rw [List.count_eq_one_of_mem hmem_nd (hsub a ha)]
    have : List.count a (mem.filter (fun u => !(s.contains u))) = 0 := by
      rw [List.count_eq_zero]
      intro hmem2
      have := (List.mem_filter.mp hmem2).2
      simp at this
      exact this ha
    omega
  · rw [List.count_eq_zero.mpr ha, Nat.zero_add]
    exact count_filter_not_contains s mem a ha

/-- Two distinct cells of a wellformed colouring have disjoint member
sets. -/
theorem wf_mem_unique {C : Colouring} (hwf : WF C) {j k : Nat} {u : Nat}
    (hj : j < C.cellIds.length) (hk : k < C.cellIds.length) (hne : j ≠ k)
    (hu : u ∈ (C.cellAt j).members) : u ∉ (C.cellAt k).members := by
  have hflat : ((C.cellsList.map Cell.members).flatten).Nodup := by
    have hperm := wf_members_perm hwf
    exact hperm.nodup_iff.mpr (List.nodup_range _)
  -- decompose at the larger index
  rcases Nat.lt_or_ge j k with hjk | hjk
  · intro huk
    rw [cellsList_decomp C k hk] at hflat
    rw [List.map_append, List.map_cons, List.flatten_append,
      List.flatten_cons] at hflat
    rw [List.nodup_append] at hflat
    have hdisj := hflat.2.2
    have hmemj : C.cellAt j ∈ C.cellsList.take k := by
      have hjlen : j < (C.cellsList.take k).length := by
        rw [List.length_take, cellsList_length]
        omega
      have : (C.cellsList.take k).getD j default = C.cellAt j := by
        rw [List.getD_eq_getElem _ _ hjlen, List.getElem_take]
        rw [cellAt_eq_cellsList_getD C j hj,
          List.getD_eq_getElem _ _ (by rw [cellsList_length]; omega)]
      rw [← this]
      exact getD_mem_of_lt _ _ _ hjlen
    have huflat : u ∈ ((C.cellsList.take k).map Cell.members).flatten := by
      rw [List.mem_flatten]
      exact ⟨(C.cellAt j).members, List.mem_map_of_mem Cell.members hmemj, hu⟩
    have := hdisj huflat
    simp only [List.mem_append] at this
    exact this (Or.inl huk)
  · have hkj : k < j := by omega
    intro huk
    rw [cellsList_decomp C j hj] at hflat
    rw [List.map_append, List.map_cons, List.flatten_append,
      List.flatten_cons] at hflat
    rw [List.nodup_append] at hflat
    have hdisj := hflat.2.2
    have hmemk : C.cellAt k ∈ C.cellsList.take j := by
      have hklen : k < (C.cellsList.take j).length := by
        rw [List.length_take, cellsList_length]
        omega
      have : (C.cellsList.take j).getD k default = C.cellAt k := by
        rw [List.getD_eq_getElem _ _ hklen, List.getElem_take]
        rw [cellAt_eq_cellsList_getD C k hk,
          List.getD_eq_getElem _ _ (by rw [cellsList_length]; omega)]
      rw [← this]
      exact getD_mem_of_lt _ _ _ hklen
    have huflat : u ∈ ((C.cellsList.take j).map Cell.members).flatten := by
      rw [List.mem_flatten]
      exact ⟨(C.cellAt k).members, List.mem_map_of_mem Cell.members hmemk, huk⟩
    have := hdisj huflat
    simp only [List.mem_append] at this
    exact this (Or.inl hu)

theorem split_cellAt_lt (C : Colouring) (i : Nat) (s : List Nat) (j : Nat)
    (hi : i < C.cellIds.length)
    (hids : ∀ id ∈ C.cellIds, id < C.arena.length)
    (hnd : C.cellIds.Nodup) (hj : j < i) :
    (C.split_cell i s).cellAt j = C.cellAt j := by
  rw [cellAt_eq_cellsList_getD _ j (by rw [split_cell_cellIds_length]; omega)]
  rw [cellsList_split_cell C i s hi hids hnd]
  rw [getD_insertAt_lt _ _ _ _ _ hj
    (by rw [listSet_length, cellsList_length]; exact le_of_lt hi)]
  rw [getD_listSet_ne _ _ _ _ _ (Nat.ne_of_lt hj)]
  exact (cellAt_eq_cellsList_getD C j (by omega)).symm

theorem split_cellAt_gt (C : Colouring) (i : Nat) (s : List Nat) (j : Nat)
    (hi : i < C.cellIds.length)
    (hids : ∀ id ∈ C.cellIds, id < C.arena.length)
    (hnd : C.cellIds.Nodup) (hij : i < j) (hj : j < C.cellIds.length) :
    (C.split_cell i s).cellAt (j + 1) = C.cellAt j := by
  rw [cellAt_eq_cellsList_getD _ (j + 1) (by rw [split_cell_cellIds_length]; omega)]
  rw [cellsList_split_cell C i s hi hids hnd]
  rw [getD_insertAt_ge _ _ _ _ _ (by omega)]
  rw [getD_listSet_ne _ _ _ _ _ (by omega)]
  exact (cellAt_eq_cellsList_getD C j hj).symm

theorem split_cell_size (C : Colouring) (i : Nat) (s : List Nat) :
    (C.split_cell i s).size = C.size := rfl

theorem individualize_size (C : Colouring) (i n : Nat) :
    (C.individualize i n).1.size = C.size := rfl

theorem exists_getD_index {α : Type} {l : List α} {x : α} (d : α)
    (h : x ∈ l) : ∃ p, p < l.length ∧ l.getD p d = x := by
  obtain ⟨n, hn, he⟩ := List.mem_iff_getElem.mp h
  exact ⟨n, hn, by rw [List.getD_eq_getElem l d hn]; exact he⟩

/-- `split_cell` preserves wellformedness when the subset is a sorted,
non-empty, proper subset of the target cell's members — exactly the
shape of the buckets the refiner extracts. -/
theorem wf_split_cell (C : Colouring) (i : Nat) (s : List Nat)
    (hwf : WF C) (hi : i < C.cellIds.length)
    (hsort : s.Sorted (· < ·)) (hne : s ≠ [])
    (hsub : ∀ u ∈ s, u ∈ (C.cellAt i).members)
    (hproper : ∃ u ∈ (C.cellAt i).members, u ∉ s) :
    WF (C.split_cell i s) := by
  have hids := wf_ids_lt hwf
  have hnd := wf_ids_nodup hwf
  have hsetl : setList s = s := setList_eq_self hsort
  have hs_nd : s.Nodup := sorted_lt_nodup hsort
  have hold := wf_cells hwf _ (cellAt_mem_cellsList hi)
  have hmem_nd : (C.cellAt i).members.Nodup := sorted_lt_nodup hold.2.1
  have hperm_s :
      (s ++ (C.cellAt i).members.filter (fun u => !(s.contains u))).Perm
        (C.cellAt i).members :=
    perm_extract_sub _ s hmem_nd hs_nd hsub
  have hlen_eq :
      s.length + ((C.cellAt i).members.filter (fun u => !(s.contains u))).length
        = (C.cellAt i).members.length := by
    have := hperm_s.length_eq
    simpa using this
  have hs_pos : 0 < s.length := List.length_pos.mpr hne
  have hfilter_mem : ∀ u₀ ∈ (C.cellAt i).members, u₀ ∉ s →
      u₀ ∈ (C.cellAt i).members.filter (fun u => !(s.contains u)) := by
    intro u₀ h1 h2
    rw [List.mem_filter]
    exact ⟨h1, by simpa using h2⟩
  have hfilter_pos :
      0 < ((C.cellAt i).members.filter (fun u => !(s.contains u))).length := by
    obtain ⟨u₀, h1, h2⟩ := hproper
    exact List.length_pos.mpr (List.ne_nil_of_mem (hfilter_mem u₀ h1 h2))
  have hs_lt : s.length < (C.cellAt i).members.length := by omega
  have hlen' : (C.split_cell i s).cellIds.length = C.cellIds.length + 1 :=
    split_cell_cellIds_length C i s
  have hAt_i : (C.split_cell i s).cellAt i = ⟨(C.cellAt i).color, setList s⟩ :=
    split_cell_cellAt_self C i s (le_of_lt hi)
  have hAt_i1 := split_cell_cellAt_succ C i s hi hids
  have harena_old :
      (C.arena.getD (C.cellIds.getD i 0) default).color = (C.cellAt i).color := rfl
  refine ⟨?_, ?_, ?_, ?_, ?_, ?_, ?_, ?_, ?_, ?_, ?_⟩
  · rw [split_cell_size, split_cell_node_color, foldl_listSet_length]
    exact wf_node_color_length hwf
  · rw [split_cell_size, split_cell_node_cell, foldl_listSet_length]
    exact wf_node_cell_length hwf
  · rw [split_cell_cellIds]
    exact nodup_insertAt hnd (fun hm => absurd (hids _ hm) (lt_irrefl _))
  · exact split_cell_ids_lt C i s hids
  · rw [split_cell_size, cellsList_split_cell_decomp C i s hi hids hnd]
    intro cell hcell
    simp only [List.mem_append, List.mem_cons] at hcell
    rcases hcell with hT | hc | hr | hD
    · exact wf_cells hwf cell (List.take_subset _ _ hT)
    · subst hc
      rw [hsetl]
      refine ⟨hne, hsort, fun u hu => hold.2.2 u (hsub u hu)⟩
    · subst hr
      refine ⟨?_, ?_, ?_⟩
      · obtain ⟨u₀, h1, h2⟩ := hproper
        exact List.ne_nil_of_mem (hfilter_mem u₀ h1 h2)
      · exact List.Pairwise.sublist (List.filter_sublist _) hold.2.1
      · intro u hu
        exact hold.2.2 u (List.mem_of_mem_filter hu)
    · exact wf_cells hwf cell (List.drop_subset _ _ hD)
  · rw [(packedB_iff _)]
    rw [cellsList_split_cell_decomp C i s hi hids hnd]
    have hch := wf_packed hwf
    rw [cellsList_decomp C i hi] at hch
    refine chain'_split_pair _ _ _ _ _ hch rfl ?_ ?_
    · simp only [hsetl]
      exact le_rfl
    · simp only
      omega
  · have hp : (((C.split_cell i s).cellsList.map Cell.members).flatten).Perm
        ((C.cellsList.map Cell.members).flatten) := by
      rw [cellsList_split_cell_decomp C i s hi hids hnd]
      conv_rhs => rw [cellsList_decomp C i hi]
      rw [List.map_append, List.map_cons, List.map_cons,
        List.flatten_append, List.flatten_cons, List.flatten_cons]
      rw [List.map_append, List.map_cons, List.flatten_append,
        List.flatten_cons]
      refine List.Perm.append_left _ ?_
      rw [hsetl, ← List.append_assoc]
      exact hperm_s.append_right _
    rw [split_cell_size, sortAsc_congr_perm hp]
    exact wf_members_sorted hwf
  · intro j hj u hu
    rw [hlen'] at hj
    rcases Nat.lt_trichotomy j i with hji | hji | hji
    · rw [split_cellAt_lt C i s j hi hids hnd hji] at hu ⊢
      rw [split_cell_node_color]
      rw [getD_foldl_listSet_not_mem]
      · exact wf_node_color_spec hwf j (by omega) u hu
      · intro hmem2
        exact wf_mem_unique hwf (by omega) hi (by omega) hu
          (List.mem_of_mem_filter hmem2)
    · subst hji
      rw [hAt_i] at hu ⊢
      simp only at hu ⊢
      rw [hsetl] at hu
      rw [split_cell_node_color]
      rw [getD_foldl_listSet_not_mem]
      · exact wf_node_color_spec hwf j hi u (hsub u hu)
      · intro hmem2
        have := (List.mem_filter.mp hmem2).2
        simp at this
        exact this hu
    · rcases Nat.eq_or_lt_of_le hji with hji1 | hji2
      · subst hji1
        rw [hAt_i1] at hu ⊢
        simp only at hu ⊢
        rw [split_cell_node_color]
        rw [getD_foldl_listSet_mem _ _ _ _ _ hu]
        rw [wf_node_color_length hwf]
        exact hold.2.2 u (List.mem_of_mem_filter hu)
      · have hj2 : i < j - 1 := by omega
        have hj3 : j - 1 < C.cellIds.length := by omega
        have hj4 : j = (j - 1) + 1 := by omega
        rw [hj4] at hu ⊢
        rw [split_cellAt_gt C i s (j - 1) hi hids hnd hj2 hj3] at hu ⊢
        rw [split_cell_node_color]
        rw [getD_foldl_listSet_not_mem]
        · exact wf_node_color_spec hwf (j - 1) hj3 u hu
        · intro hmem2
          exact wf_mem_unique hwf hj3 hi (by omega) hu
            (List.mem_of_mem_filter hmem2)
  · rw [split_cell_color_cell, mapMove, wf_color_lookup_at hwf hi]
    exact keys_nodup_mapInsert _ _ _
      (keys_nodup_mapInsert _ _ _
        (keys_nodup_mapRemove _ _ (wf_keys_nodup hwf)))
  · rw [split_cell_color_cell, mapMove, wf_color_lookup_at hwf hi]
    intro p hp
    have hnd_in : (mapKeys (mapInsert (mapRemove C.color_cell (C.cellAt i).color)
        ((C.cellAt i).color + s.length) (C.cellIds.getD i 0))).Nodup :=
      keys_nodup_mapInsert _ _ _ (keys_nodup_mapRemove _ _ (wf_keys_nodup hwf))
    rcases mem_mapInsert hnd_in hp with h1 | ⟨h1, hk1⟩
    · subst h1
      constructor
      · rw [split_cell_cellIds]
        exact self_mem_insertAt _ _ _
      · rw [split_cell_arena, getD_setArena_new]
    · rcases mem_mapInsert (keys_nodup_mapRemove _ _ (wf_keys_nodup hwf)) h1
        with h2 | ⟨h2, hk2⟩
      · subst h2
        constructor
        · rw [split_cell_cellIds]
          exact mem_insertAt_of_mem _ _ (getD_mem_of_lt _ _ _ hi)
        · rw [split_cell_arena,
            getD_setArena_old _ _ _ _ (hids _ (getD_mem_of_lt _ _ _ hi))]
      · obtain ⟨h3, hk3⟩ := mem_mapRemove (wf_keys_nodup hwf) h2
        obtain ⟨hid_mem, hcol⟩ := wf_entries hwf p h3
        have hpne : p.2 ≠ C.cellIds.getD i 0 := by
          intro he
          rw [he] at hcol
          rw [harena_old] at hcol
          exact hk3 hcol.symm
        constructor
        · rw [split_cell_cellIds]
          exact mem_insertAt_of_mem _ _ hid_mem
        · rw [split_cell_arena,
            getD_setArena_other _ _ _ _ _ (hids _ hid_mem) hpne]
          exact hcol
  · intro id hid
    rw [split_cell_cellIds] at hid
    rcases mem_insertAt hid with hidn | hid_mem
    · subst hidn
      rw [split_cell_arena, getD_setArena_new]
      rw [split_cell_color_cell]
      exact mapGet?_mapInsert_self _ _ _
    · by_cases hold_id : id = C.cellIds.getD i 0
      · subst hold_id
        rw [split_cell_arena,
          getD_setArena_old _ _ _ _ (hids _ hid_mem)]
        rw [split_cell_color_cell]
        rw [mapGet?_mapInsert_ne _ _ _ _ (by simp only; omega)]
        rw [mapMove, wf_color_lookup_at hwf hi]
        exact mapGet?_mapInsert_self _ _ _
      · rw [split_cell_arena,
          getD_setArena_other _ _ _ _ _ (hids _ hid_mem) hold_id]
        obtain ⟨p, hp, hpe⟩ := exists_getD_index 0 hid_mem
        have hpne : p ≠ i := by
          intro he
          rw [he] at hpe
          exact hold_id hpe.symm
        have hcolp : (C.arena.getD id default).color = (C.cellAt p).color := by
          rw [← hpe]
          rfl
        have hchain := wf_packed hwf
        have hnonempty : ∀ cell ∈ C.cellsList, cell.members ≠ [] :=
          fun cell hc => (wf_cells hwf cell hc).1
        have hgetp : C.cellsList.getD p default = C.cellAt p :=
          (cellAt_eq_cellsList_getD C p hp).symm
        have hgeti : C.cellsList.getD i default = C.cellAt i :=
          (cellAt_eq_cellsList_getD C i hi).symm
        have hLlen : C.cellsList.length = C.cellIds.length := cellsList_length C
        have hc_ne_c0 : (C.cellAt p).color ≠ (C.cellAt i).color := by
          intro he
          exact hpne (packed_color_inj C.cellsList default hchain hnonempty p i
            (by omega) (by omega) (by rw [hgetp, hgeti, he]))
        have hc_ne_cnew :
            (C.cellAt p).color ≠ (C.cellAt i).color + s.length := by
          rcases Nat.lt_or_ge p i with hpi | hpi
          · have := packed_color_lt C.cellsList default hchain hnonempty p i
              hpi (by omega)
            rw [hgetp, hgeti] at this
            omega
          · have hpi2 : i < p := by omega
            have := packed_between C.cellsList default hchain hnonempty i p
              hpi2 (by omega)
            rw [hgetp, hgeti] at this
            omega
        rw [split_cell_color_cell]
        rw [hcolp]
        rw [mapGet?_mapInsert_ne _ _ _ _ hc_ne_c0]
        rw [mapMove, wf_color_lookup_at hwf hi]
        rw [mapGet?_mapInsert_ne _ _ _ _ hc_ne_cnew]
        rw [mapGet?_mapRemove_ne _ _ _ (wf_keys_nodup hwf) hc_ne_c0]
        have := wf_lookup hwf id hid_mem
        rw [← hcolp]
        exact this

theorem setList_singleton (n : Nat) : setList [n] = [n] :=
  setList_eq_self (List.sorted_singleton n)

/-- `individualize` performs exactly the state update of `split_cell`
with the singleton subset `[node]` (the returned colour apart). -/
theorem individualize_eq_split (C : Colouring) (i n : Nat) :
    (C.individualize i n).1 = C.split_cell i [n] := by
  have hfil : ∀ l : List Nat, l.filter (fun u => u != n)
      = l.filter (fun u => !(([n] : List Nat).contains u)) := by
    intro l
    apply List.filter_congr
    intro a _
    cases h : a == n
    · simp at h; simp [h]
    · simp at h; simp [h]
  show Colouring.mk _ _ _ _ _ _ = Colouring.mk _ _ _ _ _ _
  congr 1
  · simp only [setList_singleton, List.length_singleton, hfil]
  · simp only [List.length_singleton, hfil]

/-- `individualize` preserves wellformedness under its preconditions. -/
theorem wf_individualize (C : Colouring) (i n : Nat)
    (hwf : WF C) (hi : i < C.cellIds.length)
    (hmem : n ∈ (C.cellAt i).members)
    (hlen : 1 < (C.cellAt i).members.length) :
    WF (C.individualize i n).1 := by
  rw [individualize_eq_split]
  refine wf_split_cell C i [n] hwf hi (List.sorted_singleton n)
    (by simp) (by simpa using hmem) ?_
  have hsorted := (wf_cells hwf _ (cellAt_mem_cellsList hi)).2.1
  have hnd := sorted_lt_nodup hsorted
  by_contra hno
  push_neg at hno
  have hsub : (C.cellAt i).members ⊆ [n] := by
    intro u hu
    simpa using hno u hu
  have := List.Nodup.subperm hnd hsub
  have hle := this.length_le
  simp at hle
  omega

theorem getD_replicate_self {α : Type} (k : Nat) (a : α) (i : Nat) :
    (List.replicate k a).getD i a = a := by
  induction k generalizing i with
  | zero => cases i <;> rfl
  | succ m ih =>
    cases i with
    | zero => rfl
    | succ j =>
      simp only [List.replicate_succ, List.getD_cons_succ]
      exact ih j

/-- `Colouring::new` yields a wellformed colouring on every non-empty
graph (for `N = 0` the single cell is empty, which is exactly the state
that later makes the search panic — claim C2). -/
theorem wf_new (g : Graph) (hpos : 0 < g.node_count) :
    WF (Colouring.new g) := by
  have hcells : (Colouring.new g).cellsList = [⟨0, List.range g.node_count⟩] := rfl
  refine ⟨by simp [Colouring.new], by simp [Colouring.new], by simp [Colouring.new],
    ?_, ?_, ?_, ?_, ?_, ?_, ?_, ?_⟩
  · intro id hid
    simp only [Colouring.new, List.mem_singleton] at hid
    subst hid
    simp [Colouring.new]
  · rw [hcells]
    intro cell hcell
    simp only [List.mem_singleton] at hcell
    subst hcell
    refine ⟨?_, ?_, ?_⟩
    · simp only [ne_eq, List.range_eq_nil]
      omega
    · exact List.pairwise_lt_range g.node_count
    · intro u hu
      simpa [Colouring.new] using List.mem_range.mp hu
  · rw [hcells]
    rfl
  · rw [hcells]
    show sortAsc (List.range g.node_count ++ []) = List.range (Colouring.new g).size
    rw [List.append_nil]
    show sortAsc (List.range g.node_count) = List.range g.node_count
    unfold sortAsc
    exact List.Sorted.insertionSort_eq
      ((List.pairwise_lt_range g.node_count).imp le_of_lt)
  · intro j hj u hu
    simp only [Colouring.new, List.length_singleton] at hj
    have hj0 : j = 0 := by omega
    subst hj0
    have hAt : (Colouring.new g).cellAt 0 = ⟨0, List.range g.node_count⟩ := rfl
    rw [hAt] at hu ⊢
    show (List.replicate g.node_count 0).getD u 0 = 0
    exact getD_replicate_self _ _ _
  · simp [Colouring.new, mapKeys]
  · intro p hp
    simp only [Colouring.new, List.mem_singleton] at hp
    subst hp
    exact ⟨by simp [Colouring.new], rfl⟩
  · intro id hid
    simp only [Colouring.new, List.mem_singleton] at hid
    subst hid
    rfl

/-! ### Correctness of the `get_color_index` binary search -/

theorem getColorIndexLoop_correct (C : Colouring) (c : Nat) (idx : Nat)
    (hmono : ∀ j k, j < k → k < C.cellIds.length →
      (C.cellAt j).color < (C.cellAt k).color)
    (hidx : idx < C.cellIds.length) (hc : (C.cellAt idx).color = c) :
    ∀ fuel i j, i ≤ idx → idx < j → j ≤ C.cellIds.length → j - i ≤ fuel →
      C.getColorIndexLoop c fuel i j = some idx := by
  intro fuel
  induction fuel with
  | zero =>
    intro i j h1 h2 h3 h4
    omega
  | succ m ih =>
    intro i j h1 h2 h3 h4
    have hkge : i ≤ (i + j) / 2 := by omega
    have hklt : (i + j) / 2 < j := by omega
    have huniq : ∀ p, p < C.cellIds.length → (C.cellAt p).color = c → p = idx := by
      intro p hp hpc
      rcases Nat.lt_trichotomy p idx with h | h | h
      · have := hmono p idx h hidx
        omega
      · exact h
      · have := hmono idx p h hp
        omega
    show (if (C.cellAt ((i + j) / 2)).color = c then some ((i + j) / 2)
      else if (C.cellAt ((i + j) / 2)).color > c then
        C.getColorIndexLoop c m i ((i + j) / 2)
      else C.getColorIndexLoop c m ((i + j) / 2) j) = some idx
    by_cases heq : (C.cellAt ((i + j) / 2)).color = c
    · rw [if_pos heq]
      rw [huniq _ (by omega) heq]
    · rw [if_neg heq]
      have hne2 : (i + j) / 2 ≠ idx := fun he => heq (he ▸ hc)
      have hj2 : i + 2 ≤ j := by
        by_contra hno
        have : j = i + 1 := by omega
        subst this
        have : idx = i := by omega
        subst this
        exact hne2 (by omega)
      by_cases hgt : (C.cellAt ((i + j) / 2)).color > c
      · rw [if_pos hgt]
        have hlt : idx < (i + j) / 2 := by
          rcases Nat.lt_or_ge idx ((i + j) / 2) with h | h
          · exact h
          · rcases Nat.eq_or_lt_of_le h with h5 | h5
            · exact absurd h5 hne2
            · have := hmono ((i + j) / 2) idx h5 hidx
              omega
        exact ih i ((i + j) / 2) h1 hlt (by omega) (by omega)
      · rw [if_neg hgt]
        have hlt : (i + j) / 2 < idx := by
          rcases Nat.lt_or_ge ((i + j) / 2) idx with h | h
          · exact h
          · rcases Nat.eq_or_lt_of_le h with h5 | h5
            · exact absurd h5.symm hne2
            · have := hmono idx ((i + j) / 2) h5 (by omega)
              omega
        have hknei : i < (i + j) / 2 := by omega
        exact ih ((i + j) / 2) j (by omega) h2 h3 (by omega)

/-- Under the packed invariant, `get_color_index` finds the index of
the (unique) cell holding colour `c`. -/
theorem get_color_index_correct (C : Colouring) (c : Nat) (idx : Nat)
    (hchain : List.Chain' (fun a b => a.color + a.members.length ≤ b.color)
      C.cellsList)
    (hnonempty : ∀ cell ∈ C.cellsList, cell.members ≠ [])
    (hidx : idx < C.cellIds.length) (hc : (C.cellAt idx).color = c) :
    C.get_color_index c = some idx := by
  have hmono : ∀ j k, j < k → k < C.cellIds.length →
      (C.cellAt j).color < (C.cellAt k).color := by
    intro j k hjk hk
    have := packed_color_lt C.cellsList default hchain hnonempty j k hjk
      (by rw [cellsList_length]; exact hk)
    rw [← cellAt_eq_cellsList_getD C j (by omega),
      ← cellAt_eq_cellsList_getD C k hk] at this
    exact this
  unfold Colouring.get_color_index
  by_cases h0 : (C.cellAt 0).color = c
  · rw [if_pos h0]
    congr 1
    rcases Nat.eq_zero_or_pos idx with h | h
    · omega
    · have := hmono 0 idx h hidx
      omega
  · rw [if_neg h0]
    have hidx0 : 0 < idx := by
      rcases Nat.eq_zero_or_pos idx with h | h
      · exact absurd (h ▸ hc) h0
      · exact h
    exact getColorIndexLoop_correct C c idx hmono hidx hc _ 0 _
      (by omega) hidx le_rfl (by omega)

/-! ### Characterization of the degree buckets (`buildSplits`) -/

theorem mapGet?_mem {α : Type} {m : List (Nat × α)} {k : Nat} {v : α}
    (h : mapGet? m k = some v) : (k, v) ∈ m := by
  induction m with
  | nil => simp [mapGet?] at h
  | cons p rest ih =>
    simp only [mapGet?] at h
    by_cases hp : p.1 = k
    · rw [if_pos hp] at h
      injection h with h2
      have hpe : p = (k, v) := Prod.ext hp h2
      exact List.mem_cons.mpr (Or.inl hpe.symm)
    · rw [if_neg hp] at h
      exact List.mem_cons_of_mem p (ih h)

theorem mapGet?_of_mem_nodup {α : Type} {m : List (Nat × α)} {p : Nat × α}
    (hnd : (mapKeys m).Nodup) (h : p ∈ m) : mapGet? m p.1 = some p.2 := by
  induction m with
  | nil => simp at h
  | cons q rest ih =>
    simp only [mapKeys, List.map_cons, List.nodup_cons] at hnd
    rcases List.mem_cons.mp h with h1 | h1
    · subst h1
      simp [mapGet?]
    · simp only [mapGet?]
      rw [if_neg ?_]
      · exact ih hnd.2 h1
      · intro he
        exact hnd.1 (he ▸ List.mem_map_of_mem Prod.fst h1)

theorem mapGet?_append {α : Type} (m t : List (Nat × α)) (k : Nat) :
    mapGet? (m ++ t) k =
      match mapGet? m k with
      | some v => some v
      | none => mapGet? t k := by
  induction m with
  | nil => rfl
  | cons p rest ih =>
    simp only [List.cons_append, mapGet?]
    by_cases hp : p.1 = k
    · rw [if_pos hp, if_pos hp]
    · rw [if_neg hp, if_neg hp]
      exact ih

/-- The degree of a node as the bucket loop reads it. -/
def degD (degrees : List (Nat × Nat)) (u : Nat) : Nat :=
  (mapGet? degrees u).getD 0

/-- One step of the bucket fold. -/
theorem buildSplits_append (degrees : List (Nat × Nat)) (members : List Nat)
    (u : Nat) :
    Colouring.buildSplits degrees (members ++ [u]) =
      (match mapGet? (Colouring.buildSplits degrees members) (degD degrees u) with
        | some m2 =>
          mapInsert (Colouring.buildSplits degrees members) (degD degrees u) (m2 ++ [u])
        | none =>
          Colouring.buildSplits degrees members ++ [(degD degrees u, [u])]) := by
  unfold Colouring.buildSplits
  rw [List.foldl_append]
  rfl

/-- Full characterization of `buildSplits`: keys are duplicate-free, a
present key's bucket is exactly the members with that degree, and an
absent key has no members with that degree. -/
theorem buildSplits_facts (degrees : List (Nat × Nat)) (members : List Nat) :
    (mapKeys (Colouring.buildSplits degrees members)).Nodup ∧
    (∀ d l, mapGet? (Colouring.buildSplits degrees members) d = some l →
      l = members.filter (fun u => degD degrees u == d)) ∧
    (∀ d, mapGet? (Colouring.buildSplits degrees members) d = none →
      members.filter (fun u => degD degrees u == d) = []) := by
  induction members using List.reverseRecOn with
  | nil =>
    refine ⟨by simp [Colouring.buildSplits, mapKeys], ?_, ?_⟩
    · intro d l h
      simp [Colouring.buildSplits, mapGet?] at h
    · intro d _
      rfl
  | append_singleton rest u ih =>
    obtain ⟨ih1, ih2, ih3⟩ := ih
    rw [buildSplits_append]
    by_cases hu : ∃ m2, mapGet? (Colouring.buildSplits degrees rest) (degD degrees u) = some m2
    · obtain ⟨m2, hm2⟩ := hu
      rw [hm2]
      refine ⟨keys_nodup_mapInsert _ _ _ ih1, ?_, ?_⟩
      · intro d l h
        by_cases hd : d = degD degrees u
        · subst hd
          rw [mapGet?_mapInsert_self] at h
          injection h with h
          rw [← h, ih2 _ m2 hm2, List.filter_append]
          congr 1
          simp
        · rw [mapGet?_mapInsert_ne _ _ _ _ hd] at h
          rw [List.filter_append]
          rw [ih2 d l h]
          have : (degD degrees u == d) = false := by
            simp
            exact fun he => hd he.symm
          simp [this]
      · intro d h
        by_cases hd : d = degD degrees u
        · subst hd
          rw [mapGet?_mapInsert_self] at h
          exact absurd h (by simp)
        · rw [mapGet?_mapInsert_ne _ _ _ _ hd] at h
          rw [List.filter_append, ih3 d h]
          have : (degD degrees u == d) = false := by
            simp
            exact fun he => hd he.symm
          simp [this]
    · push_neg at hu
      have hnone : mapGet? (Colouring.buildSplits degrees rest) (degD degrees u) = none := by
        cases h : mapGet? (Colouring.buildSplits degrees rest) (degD degrees u) with
        | none => rfl
        | some v => exact absurd h (hu v)
      rw [hnone]
      refine ⟨?_, ?_, ?_⟩
      · rw [show mapKeys (Colouring.buildSplits degrees rest ++ [(degD degrees u, [u])])
            = mapKeys (Colouring.buildSplits degrees rest) ++ [degD degrees u] from by
          simp [mapKeys]]
        rw [List.nodup_append]
        refine ⟨ih1, List.nodup_singleton _, ?_⟩
        intro x hx
        simp only [List.mem_singleton]
        intro he
        subst he
        obtain ⟨v, hv⟩ := mapGet?_isSome_of_mem_keys hx
        rw [hnone] at hv
        exact Option.noConfusion hv
      · intro d l h
        rw [mapGet?_append] at h
        by_cases hd : d = degD degrees u
        · subst hd
          rw [hnone] at h
          simp [mapGet?] at h
          rw [List.filter_append, ih3 _ hnone]
          rw [← h]
          simp
        · cases hrest : mapGet? (Colouring.buildSplits degrees rest) d with
          | some v =>
            rw [hrest] at h
            injection h with h
            subst h
            rw [List.filter_append, ih2 d _ hrest]
            have : (degD degrees u == d) = false := by
              simp
              exact fun he => hd he.symm
            simp [this]
          | none =>
            rw [hrest] at h
            simp only [mapGet?] at h
            rw [if_neg (fun he => hd he.symm)] at h
            simp [mapGet?] at h
      · intro d h
        rw [mapGet?_append] at h
        by_cases hd : d = degD degrees u
        · subst hd
          rw [hnone] at h
          simp [mapGet?] at h
        · cases hrest : mapGet? (Colouring.buildSplits degrees rest) d with
          | some v =>
            rw [hrest] at h
            exact absurd h (by simp)
          | none =>
            rw [List.filter_append, ih3 d hrest]
            have : (degD degrees u == d) = false := by
              simp
              exact fun he => hd he.symm
            simp [this]

theorem buildSplits_some_ne_nil (degrees : List (Nat × Nat)) (members : List Nat)
    (d : Nat) (l : List Nat)
    (h : mapGet? (Colouring.buildSplits degrees members) d = some l) : l ≠ [] := by
  induction members using List.reverseRecOn generalizing l with
  | nil => simp [Colouring.buildSplits, mapGet?] at h
  | append_singleton rest u ih =>
    rw [buildSplits_append] at h
    cases hm : mapGet? (Colouring.buildSplits degrees rest) (degD degrees u) with
    | some m2 =>
      rw [hm] at h
      by_cases hd : d = degD degrees u
      · subst hd
        rw [mapGet?_mapInsert_self] at h
        injection h with h
        rw [← h]
        simp
      · rw [mapGet?_mapInsert_ne _ _ _ _ hd] at h
        exact ih _ h
    | none =>
      rw [hm, mapGet?_append] at h
      cases hrest : mapGet? (Colouring.buildSplits degrees rest) d with
      | some v =>
        rw [hrest] at h
        injection h with h
        exact h ▸ ih _ hrest
      | none =>
        rw [hrest] at h
        by_cases hd : d = degD degrees u
        · subst hd
          simp [mapGet?] at h
          rw [← h]
          simp
        · simp only [mapGet?] at h
          rw [if_neg (fun he => hd he.symm)] at h
          simp [mapGet?] at h

theorem degD_mem_keys_buildSplits (degrees : List (Nat × Nat))
    (members : List Nat) {u : Nat} (hu : u ∈ members) :
    degD degrees u ∈ mapKeys (Colouring.buildSplits degrees members) := by
  cases h : mapGet? (Colouring.buildSplits degrees members) (degD degrees u) with
  | some l => exact mem_keys_of_mapGet? h
  | none =>
    have := (buildSplits_facts degrees members).2.2 _ h
    have hmem : u ∈ members.filter (fun w => degD degrees w == degD degrees u) :=
      List.mem_filter.mpr ⟨hu, by simp⟩
    rw [this] at hmem
    simp at hmem

theorem sorted_lt_filter {l : List Nat} (p : Nat → Bool)
    (h : l.Sorted (· < ·)) : (l.filter p).Sorted (· < ·) :=
  List.Pairwise.sublist (List.filter_sublist l) h

/-- The split loop preserves wellformedness when the buckets are
non-empty, sorted, pairwise disjoint subsets of the target cell leaving
a non-empty residual — the shape `processColor` produces. -/
theorem splitBuckets_wf (bs : List (List Nat)) (C : Colouring) (i : Nat)
    (hwf : WF C) (hi : i < C.cellIds.length)
    (hbs : ∀ b ∈ bs, b ≠ [] ∧ b.Sorted (· < ·) ∧
      ∀ u ∈ b, u ∈ (C.cellAt i).members)
    (hdisj : List.Pairwise (fun a b => ∀ x ∈ a, x ∉ b) bs)
    (hres : ∃ u ∈ (C.cellAt i).members, ∀ b ∈ bs, u ∉ b) :
    WF (Colouring.splitBuckets C i bs).1 := by
  induction bs generalizing C i with
  | nil => exact hwf
  | cons b rest ih =>
    obtain ⟨u₀, hu₀M, hu₀b⟩ := hres
    obtain ⟨hbne, hbsort, hbsub⟩ := hbs b (List.mem_cons_self b rest)
    have hproper : ∃ u ∈ (C.cellAt i).members, u ∉ b :=
      ⟨u₀, hu₀M, hu₀b b (List.mem_cons_self b rest)⟩
    have hwf' := wf_split_cell C i b hwf hi hbsort hbne hbsub hproper
    have hi' : i + 1 < (C.split_cell i b).cellIds.length := by
      rw [split_cell_cellIds_length]
      omega
    have hAt := split_cell_cellAt_succ C i b hi (wf_ids_lt hwf)
    have hdisj1 := (List.pairwise_cons.mp hdisj).1
    have hmem' : ∀ u, u ∈ ((C.split_cell i b).cellAt (i + 1)).members ↔
        u ∈ (C.cellAt i).members ∧ u ∉ b := by
      intro u
      rw [hAt]
      simp [List.mem_filter]
    have hstep : (Colouring.splitBuckets C i (b :: rest)).1
        = (Colouring.splitBuckets (C.split_cell i b) (i + 1) rest).1 := rfl
    rw [hstep]
    refine ih (C.split_cell i b) (i + 1) hwf' hi' ?_
      (List.pairwise_cons.mp hdisj).2 ?_
    · intro b2 hb2
      obtain ⟨h1, h2, h3⟩ := hbs b2 (List.mem_cons_of_mem b hb2)
      refine ⟨h1, h2, ?_⟩
      intro u hu
      rw [hmem' u]
      exact ⟨h3 u hu, fun hub => hdisj1 b2 hb2 u hub hu⟩
    · refine ⟨u₀, ?_, fun b2 hb2 => hu₀b b2 (List.mem_cons_of_mem b hb2)⟩
      rw [hmem' u₀]
      exact ⟨hu₀M, hu₀b b (List.mem_cons_self b rest)⟩

/-- `processColor` preserves wellformedness: the buckets extracted for
a touched colour are degree-filters of the cell's member list, hence
sorted, non-empty, pairwise disjoint, and leave the (non-empty)
highest-degree bucket behind as residual. -/
theorem processColor_wf (g : Graph) (degrees : List (Nat × Nat))
    (C : Colouring) (W trace : List Nat) (c : Nat) (hwf : WF C) :
    WF (Colouring.processColor g degrees (C, W, trace) c).1 := by
  cases hcc : mapGet? C.color_cell c with
  | none =>
    simp only [Colouring.processColor, hcc]
    exact hwf
  | some cid =>
    simp only [Colouring.processColor, hcc]
    by_cases h1 : (C.arena.getD cid default).members.length = 1
    · rw [if_pos h1]
      exact hwf
    · rw [if_neg h1]
      by_cases h2 :
          (Colouring.buildSplits degrees (C.arena.getD cid default).members).length = 1
      · rw [if_pos h2]
        exact hwf
      · rw [if_neg h2]
        have hccm := mapGet?_mem hcc
        have hent := wf_entries hwf _ hccm
        obtain ⟨p, hp, hpe⟩ := exists_getD_index 0 hent.1
        have hcellAtp : C.cellAt p = C.arena.getD cid default := by
          show C.arena.getD (C.cellIds.getD p 0) default = _
          rw [hpe]
        have hgci : C.get_color_index c = some p :=
          get_color_index_correct C c p (wf_packed hwf)
            (fun cell hcell => (wf_cells hwf cell hcell).1) hp
            (by rw [hcellAtp]; exact hent.2)
        set M := (C.arena.getD cid default).members with hM
        set splits := Colouring.buildSplits degrees M with hsplits
        set sd := sortAsc (mapKeys splits) with hsd
        set buckets := sd.dropLast.map (fun d => (mapGet? splits d).getD [])
          with hbuckets
        set idx := (C.get_color_index c).getD 0 with hidx
        have hidxp : idx = p := by rw [hidx, hgci]; rfl
        have hMm : (C.cellAt p).members = M := congrArg Cell.members hcellAtp
        have hcellp := wf_cells hwf _ (cellAt_mem_cellsList hp)
        have hMne : M ≠ [] := hMm ▸ hcellp.1
        have hMsorted : M.Sorted (· < ·) := hMm ▸ hcellp.2.1
        obtain ⟨hkeys_nd, hfact2, hfact3⟩ := buildSplits_facts degrees M
        have hsd_nd : sd.Nodup := (sortAsc_perm (mapKeys splits)).nodup_iff.mpr hkeys_nd
        have hmem_sd : ∀ d, d ∈ sd ↔ d ∈ mapKeys splits :=
          fun d => (sortAsc_perm (mapKeys splits)).mem_iff
        have hbucket_eq : ∀ d ∈ mapKeys splits,
            (mapGet? splits d).getD []
              = M.filter (fun u => degD degrees u == d) := by
          intro d hd
          obtain ⟨l, hl⟩ := mapGet?_isSome_of_mem_keys hd
          rw [hl]
          simp only [Option.getD_some]
          exact hfact2 d l hl
        have hbucket_ne : ∀ d ∈ mapKeys splits, (mapGet? splits d).getD [] ≠ [] := by
          intro d hd
          obtain ⟨l, hl⟩ := mapGet?_isSome_of_mem_keys hd
          rw [hl]
          simp only [Option.getD_some]
          exact buildSplits_some_ne_nil degrees M d l hl
        have hb : ∀ b ∈ buckets, b ≠ [] ∧ b.Sorted (· < ·) ∧
            ∀ u ∈ b, u ∈ (C.cellAt idx).members := by
          intro b hbmem
          obtain ⟨d, hd, hfd⟩ := List.mem_map.mp hbmem
          have hdk := (hmem_sd d).mp (List.mem_of_mem_dropLast hd)
          have hbl : b = M.filter (fun u => degD degrees u == d) := by
            rw [← hfd]
            exact hbucket_eq d hdk
          refine ⟨hfd ▸ hbucket_ne d hdk, hbl ▸ sorted_lt_filter _ hMsorted, ?_⟩
          intro u hu
          rw [hbl] at hu
          rw [hidxp, hMm]
          exact List.mem_of_mem_filter hu
        have hd_nd : sd.dropLast.Nodup := hsd_nd.sublist (List.dropLast_sublist sd)
        have hdisj : List.Pairwise (fun a b => ∀ x ∈ a, x ∉ b) buckets := by
          rw [hbuckets, List.pairwise_map]
          refine List.Pairwise.imp_of_mem ?_ hd_nd
          intro d1 d2 hd1 hd2 hne x hx1 hx2
          rw [hbucket_eq d1 ((hmem_sd d1).mp (List.mem_of_mem_dropLast hd1))] at hx1
          rw [hbucket_eq d2 ((hmem_sd d2).mp (List.mem_of_mem_dropLast hd2))] at hx2
          have e1 : degD degrees x = d1 := by simpa using (List.mem_filter.mp hx1).2
          have e2 : degD degrees x = d2 := by simpa using (List.mem_filter.mp hx2).2
          exact hne (e1 ▸ e2)
        have hsdne : sd ≠ [] := by
          obtain ⟨u, hu⟩ := List.exists_mem_of_ne_nil M hMne
          exact List.ne_nil_of_mem ((hmem_sd _).mpr (degD_mem_keys_buildSplits degrees M hu))
        have hlast_mem : sd.getLast hsdne ∈ sd := List.getLast_mem hsdne
        obtain ⟨ll, hll⟩ := mapGet?_isSome_of_mem_keys ((hmem_sd _).mp hlast_mem)
        have hlne : ll ≠ [] := buildSplits_some_ne_nil degrees M _ ll hll
        have hlf : ll = M.filter (fun u => degD degrees u == sd.getLast hsdne) :=
          hfact2 _ ll hll
        obtain ⟨u₁, hu₁⟩ := List.exists_mem_of_ne_nil ll hlne
        have hu₁f := hlf ▸ hu₁
        have hu₁M : u₁ ∈ M := (List.mem_filter.mp hu₁f).1
        have hu₁d : degD degrees u₁ = sd.getLast hsdne := by
          simpa using (List.mem_filter.mp hu₁f).2
        have hlast_not_dl : sd.getLast hsdne ∉ sd.dropLast := by
          intro hmem
          have hnd2 := hsd_nd
          rw [← List.dropLast_append_getLast hsdne, List.nodup_append] at hnd2
          exact hnd2.2.2 hmem (List.mem_singleton.mpr rfl)
        have hres : ∃ u ∈ (C.cellAt idx).members, ∀ b ∈ buckets, u ∉ b := by
          refine ⟨u₁, by rw [hidxp, hMm]; exact hu₁M, ?_⟩
          intro b hbmem hub
          obtain ⟨d, hdd, hfd⟩ := List.mem_map.mp hbmem
          rw [← hfd, hbucket_eq d ((hmem_sd d).mp (List.mem_of_mem_dropLast hdd))] at hub
          have : degD degrees u₁ = d := by simpa using (List.mem_filter.mp hub).2
          rw [hu₁d] at this
          exact hlast_not_dl (this ▸ hdd)
        have hwfsb := splitBuckets_wf buckets C idx hwf (hidxp ▸ hp) hb hdisj hres
        rcases hsb : Colouring.splitBuckets C idx buckets with ⟨C2, fidx, ws, ts⟩
        rw [hsb] at hwfsb
        exact hwfsb

theorem foldl_processColor_wf (g : Graph) (degrees : List (Nat × Nat))
    (visited : List Nat) (st : Colouring × List Nat × List Nat)
    (hwf : WF st.1) :
    WF (visited.foldl (Colouring.processColor g degrees) st).1 := by
  induction visited generalizing st with
  | nil => exact hwf
  | cons c rest ih =>
    rw [List.foldl_cons]
    refine ih _ ?_
    rcases st with ⟨C, W, trace⟩
    exact processColor_wf g degrees C W trace c hwf

theorem refineLoop_wf (g : Graph) (fuel : Nat) (W : List Nat)
    (C : Colouring) (trace : List Nat) (hwf : WF C) :
    WF (Colouring.refineLoop g fuel W C trace).1 := by
  induction fuel generalizing W C trace with
  | zero => exact hwf
  | succ n ih =>
    simp only [Colouring.refineLoop]
    cases hmin : W.min? with
    | none => exact hwf
    | some s =>
      exact ih _ _ _ (foldl_processColor_wf g
        (C.degreeData g
          (C.arena.getD ((mapGet? C.color_cell s).getD 0) default).members).1
        (setList (C.degreeData g
          (C.arena.getD ((mapGet? C.color_cell s).getD 0) default).members).2)
        (C, W.filter (fun x => x != s), trace) hwf)

/-- `refine` preserves wellformedness unconditionally: every bucket it
ever extracts is a degree-filter of the split cell's member list. -/
theorem refine_wf (C : Colouring) (g : Graph) (hwf : WF C) :
    WF (C.refine g).1 := by
  unfold Colouring.refine
  by_cases hd : C.is_discrete
  · rw [if_pos hd]
    exact hwf
  · rw [if_neg hd]
    exact refineLoop_wf g _ _ C [] hwf

/-- On a wellformed colouring the `cells` vector is in strictly
ascending colour order (packed colours of non-empty cells). -/
theorem wf_colors_ascending {C : Colouring} (hwf : WF C) :
    ∀ j k, j < k → k < C.cellIds.length →
      (C.cellAt j).color < (C.cellAt k).color := by
  intro j k hjk hk
  have := packed_color_lt C.cellsList default (wf_packed hwf)
    (fun cell hcell => (wf_cells hwf cell hcell).1) j k hjk
    (by rw [cellsList_length]; exact hk)
  rw [← cellAt_eq_cellsList_getD C j (by omega),
    ← cellAt_eq_cellsList_getD C k hk] at this
  exact this

/-! ### C10: the sorted-cells invariant and the binary search -/

/-- C10 (confirmed).  Wellformedness — which contains the strictly
ascending colour order of the `cells` vector — holds after
`Colouring::new` on a non-empty graph and is preserved by
`individualize`, `split_cell` and `refine` under the preconditions the
algorithm maintains at every call site; on every wellformed colouring
the cells are in strictly ascending colour order, and under that
invariant the binary search of `get_color_index` terminates and returns
the index of the cell holding the looked-up colour. -/
theorem C10_sorted_cells_bsearch :
    (∀ g : Graph, 0 < g.node_count → WF (Colouring.new g)) ∧
    (∀ C : Colouring, ∀ i n : Nat, WF C → i < C.cellIds.length →
      n ∈ (C.cellAt i).members → 1 < (C.cellAt i).members.length →
      WF (C.individualize i n).1) ∧
    (∀ C : Colouring, ∀ i : Nat, ∀ s : List Nat, WF C → i < C.cellIds.length →
      s.Sorted (· < ·) → s ≠ [] → (∀ u ∈ s, u ∈ (C.cellAt i).members) →
      (∃ u ∈ (C.cellAt i).members, u ∉ s) → WF (C.split_cell i s)) ∧
    (∀ C : Colouring, ∀ g : Graph, WF C → WF (C.refine g).1) ∧
    (∀ C : Colouring, WF C → ∀ j k, j < k → k < C.cellIds.length →
      (C.cellAt j).color < (C.cellAt k).color) ∧
    (∀ C : Colouring, ∀ c idx : Nat, WF C → idx < C.cellIds.length →
      (C.cellAt idx).color = c → C.get_color_index c = some idx) :=
  ⟨wf_new,
   fun C i n hwf hi hmem hlen => wf_individualize C i n hwf hi hmem hlen,
   fun C i s hwf hi hsort hne hsub hproper =>
     wf_split_cell C i s hwf hi hsort hne hsub hproper,
   fun C g hwf => refine_wf C g hwf,
   fun _C hwf => wf_colors_ascending hwf,
   fun C c idx hwf hidx hc =>
     get_color_index_correct C c idx (wf_packed hwf)
       (fun cell hcell => (wf_cells hwf cell hcell).1) hidx hc⟩

/-- Witness for C10 on the uniform colouring of three isolated nodes
and its first split. -/
theorem C10_sorted_cells_bsearch_witness :
    WF (Colouring.new ⟨3, []⟩) ∧
    WF ((Colouring.new ⟨3, []⟩).individualize 0 0).1 ∧
    WF ((Colouring.new ⟨3, []⟩).split_cell 0 [0]) ∧
    WF ((Colouring.new ⟨3, []⟩).refine ⟨3, []⟩).1 ∧
    (((Colouring.new ⟨3, []⟩).split_cell 0 [0]).cellAt 0).color
      < (((Colouring.new ⟨3, []⟩).split_cell 0 [0]).cellAt 1).color ∧
    ((Colouring.new ⟨3, []⟩).split_cell 0 [0]).get_color_index 1 = some 1 := by
  have h := C10_sorted_cells_bsearch
  refine ⟨h.1 ⟨3, []⟩ (by decide),
    h.2.1 (Colouring.new ⟨3, []⟩) 0 0 (by decide) (by decide) (by decide) (by decide),
    h.2.2.1 (Colouring.new ⟨3, []⟩) 0 [0] (by decide) (by decide) (by decide)
      (by decide) (by decide) (by decide),
    h.2.2.2.1 (Colouring.new ⟨3, []⟩) ⟨3, []⟩ (by decide),
    h.2.2.2.2.1 ((Colouring.new ⟨3, []⟩).split_cell 0 [0]) (by decide) 0 1
      (by decide) (by decide),
    h.2.2.2.2.2 ((Colouring.new ⟨3, []⟩).split_cell 0 [0]) 1 1 (by decide)
      (by decide) (by decide)⟩

/-! ### C9: refinement on an equitable colouring -/

theorem degD_bumpDegree (degrees : List (Nat × Nat)) (w v : Nat) :
    degD (Colouring.bumpDegree degrees w) v
      = if v = w then degD degrees v + 1 else degD degrees v := by
  unfold Colouring.bumpDegree
  cases h : mapGet? degrees w with
  | some n =>
    by_cases hv : v = w
    · subst hv
      rw [if_pos rfl]
      unfold degD
      rw [mapGet?_mapInsert_self, h]
      rfl
    · rw [if_neg hv]
      unfold degD
      rw [mapGet?_mapInsert_ne _ _ _ _ hv]
  | none =>
    by_cases hv : v = w
    · subst hv
      rw [if_pos rfl]
      unfold degD
      rw [mapGet?_mapInsert_self, h]
      rfl
    · rw [if_neg hv]
      unfold degD
      rw [mapGet?_mapInsert_ne _ _ _ _ hv]

theorem degD_foldl_bump (ns : List Nat) (degrees : List (Nat × Nat)) (v : Nat) :
    degD (ns.foldl Colouring.bumpDegree degrees) v
      = degD degrees v + ns.count v := by
  induction ns generalizing degrees with
  | nil => simp
  | cons w rest ih =>
    rw [List.foldl_cons, ih, degD_bumpDegree]
    by_cases hv : v = w
    · subst hv
      rw [if_pos rfl, List.count_cons_self]
      omega
    · rw [if_neg hv, List.count_cons_of_ne hv]

theorem degreeData_inner_fst (C : Colouring) (ns : List Nat)
    (acc : List (Nat × Nat) × List Nat) :
    (ns.foldl (fun acc2 v => (Colouring.bumpDegree acc2.1 v,
        acc2.2 ++ [C.node_color.getD v 0])) acc).1
      = ns.foldl Colouring.bumpDegree acc.1 := by
  induction ns generalizing acc with
  | nil => rfl
  | cons w rest ih =>
    rw [List.foldl_cons, List.foldl_cons, ih]

/-- The degree map accumulated by `refine` for a splitter member list
records exactly `degIn`: the number of edges from each node into the
splitter. -/
theorem degreeData_fst_degD (C : Colouring) (g : Graph) (members : List Nat)
    (v : Nat) :
    degD (Colouring.degreeData C g members).1 v = degIn g v members := by
  suffices h : ∀ acc : List (Nat × Nat) × List Nat,
      degD (members.foldl (fun acc u => (g.neighbors u).foldl
        (fun acc2 w => (Colouring.bumpDegree acc2.1 w,
          acc2.2 ++ [C.node_color.getD w 0])) acc) acc).1 v
        = degD acc.1 v + degIn g v members by
    have h0 := h ([], [])
    unfold Colouring.degreeData
    rw [h0]
    simp [degD, mapGet?]
  intro acc
  induction members generalizing acc with
  | nil => simp [degIn]
  | cons u rest ih =>
    rw [List.foldl_cons, ih, degreeData_inner_fst, degD_foldl_bump]
    have : degIn g v (u :: rest) = (g.neighbors u).count v + degIn g v rest := by
      simp [degIn]
    rw [this]
    omega

/-- If every member has the same degree, `buildSplits` produces a single
bucket. -/
theorem buildSplits_length_one (degrees : List (Nat × Nat)) (members : List Nat)
    (hne : members ≠ [])
    (hconst : ∀ u ∈ members, ∀ w ∈ members, degD degrees u = degD degrees w) :
    (Colouring.buildSplits degrees members).length = 1 := by
  obtain ⟨u₀, hu₀⟩ := List.exists_mem_of_ne_nil members hne
  have hkey := degD_mem_keys_buildSplits degrees members hu₀
  have hall : ∀ d ∈ mapKeys (Colouring.buildSplits degrees members),
      d = degD degrees u₀ := by
    intro d hd
    obtain ⟨l, hl⟩ := mapGet?_isSome_of_mem_keys hd
    have hlf := (buildSplits_facts degrees members).2.1 d l hl
    have hlne := buildSplits_some_ne_nil degrees members d l hl
    obtain ⟨x, hx⟩ := List.exists_mem_of_ne_nil l hlne
    rw [hlf] at hx
    have hxm := (List.mem_filter.mp hx).1
    have hxd : degD degrees x = d := by simpa using (List.mem_filter.mp hx).2
    rw [← hxd]
    exact hconst x hxm u₀ hu₀
  have hnd := (buildSplits_facts degrees members).1
  have hlen : (mapKeys (Colouring.buildSplits degrees members)).length
      = (Colouring.buildSplits degrees members).length := by
    simp [mapKeys]
  cases hk : mapKeys (Colouring.buildSplits degrees members) with
  | nil =>
    rw [hk] at hkey
    simp at hkey
  | cons a tl =>
    cases htl : tl with
    | nil =>
      rw [hk, htl] at hlen
      simpa using hlen.symm
    | cons b tl2 =>
      rw [hk, htl] at hall hnd
      have ha := hall a (by simp)
      have hb := hall b (by simp)
      rw [List.nodup_cons] at hnd
      exact absurd (show a ∈ b :: tl2 by
        rw [ha, ← hb]
        exact List.mem_cons_self b tl2) hnd.1

/-- On a wellformed equitable colouring, processing any touched colour
with the degrees of any cell's members is a no-op: every cell falls
into a single degree bucket. -/
theorem processColor_equitable_id (g : Graph) (C : Colouring)
    (hwf : WF C) (heq : Equitable C g)
    (jM : Nat) (hjM : jM < C.cellIds.length)
    (W trace : List Nat) (c : Nat) :
    Colouring.processColor g
        (Colouring.degreeData C g (C.cellAt jM).members).1 (C, W, trace) c
      = (C, W, trace) := by
  cases hcc : mapGet? C.color_cell c with
  | none => simp only [Colouring.processColor, hcc]
  | some cid =>
    simp only [Colouring.processColor, hcc]
    by_cases h1 : (C.arena.getD cid default).members.length = 1
    · rw [if_pos h1]
    · rw [if_neg h1]
      have hccm := mapGet?_mem hcc
      have hent := wf_entries hwf _ hccm
      obtain ⟨p, hp, hpe⟩ := exists_getD_index 0 hent.1
      have hcellAtp : C.cellAt p = C.arena.getD cid default := by
        show C.arena.getD (C.cellIds.getD p 0) default = _
        rw [hpe]
      have hMne : (C.arena.getD cid default).members ≠ [] := by
        rw [← hcellAtp]
        exact (wf_cells hwf _ (cellAt_mem_cellsList hp)).1
      have hconst : ∀ u ∈ (C.arena.getD cid default).members,
          ∀ w ∈ (C.arena.getD cid default).members,
          degD (Colouring.degreeData C g (C.cellAt jM).members).1 u
            = degD (Colouring.degreeData C g (C.cellAt jM).members).1 w := by
        intro u hu w hw
        rw [degreeData_fst_degD, degreeData_fst_degD]
        exact heq p hp jM hjM u (by rw [hcellAtp]; exact hu)
          w (by rw [hcellAtp]; exact hw)
      rw [if_pos (buildSplits_length_one _ _ hMne hconst)]

theorem foldl_processColor_equitable (g : Graph) (C : Colouring)
    (hwf : WF C) (heq : Equitable C g)
    (jM : Nat) (hjM : jM < C.cellIds.length)
    (visited W trace : List Nat) :
    visited.foldl (Colouring.processColor g
        (Colouring.degreeData C g (C.cellAt jM).members).1) (C, W, trace)
      = (C, W, trace) := by
  induction visited with
  | nil => rfl
  | cons c rest ih =>
    rw [List.foldl_cons, processColor_equitable_id g C hwf heq jM hjM W trace c, ih]

theorem min_eq_or_nat : ∀ a b : Nat, min a b = a ∨ min a b = b := by
  intro a b
  rcases Nat.le_total a b with h | h
  · exact Or.inl (Nat.min_eq_left h)
  · exact Or.inr (Nat.min_eq_right h)

theorem length_filter_ne_lt {W : List Nat} {s : Nat} (hs : s ∈ W) :
    (W.filter (fun x => x != s)).length < W.length := by
  induction W with
  | nil => simp at hs
  | cons a rest ih =>
    by_cases ha : a = s
    · subst ha
      have hle := List.length_filter_le (fun x => x != a) rest
      have hred : (a :: rest).filter (fun x => x != a)
          = rest.filter (fun x => x != a) := by simp
      rw [hred, List.length_cons]
      omega
    · rcases List.mem_cons.mp hs with h | h
      · exact absurd h.symm ha
      · have := ih h
        simp only [List.filter_cons]
        have hba : (a != s) = true := by simpa using ha
        rw [hba]
        simp only [List.length_cons, if_pos trivial]
        omega

/-- On a wellformed equitable colouring the worklist loop never splits:
it drains the worklist and returns the state unchanged. -/
theorem refineLoop_equitable (g : Graph) (C : Colouring)
    (hwf : WF C) (heq : Equitable C g) :
    ∀ fuel W trace, W.length ≤ fuel →
      (∀ s ∈ W, s ∈ mapKeys C.color_cell) →
      Colouring.refineLoop g fuel W C trace = (C, trace) := by
  intro fuel
  induction fuel with
  | zero =>
    intro W trace hlen _
    have hW : W = [] := List.length_eq_zero.mp (Nat.le_zero.mp hlen)
    subst hW
    rfl
  | succ n ih =>
    intro W trace hlen hWk
    simp only [Colouring.refineLoop]
    cases hmin : W.min? with
    | none => rfl
    | some s =>
      have hsW : s ∈ W := List.min?_mem min_eq_or_nat hmin
      obtain ⟨cid, hcid⟩ := mapGet?_isSome_of_mem_keys (hWk s hsW)
      have hent := wf_entries hwf _ (mapGet?_mem hcid)
      obtain ⟨p, hp, hpe⟩ := exists_getD_index 0 hent.1
      have hmem_eq : (C.arena.getD ((mapGet? C.color_cell s).getD 0) default).members
          = (C.cellAt p).members := by
        rw [hcid]
        show (C.arena.getD cid default).members = _
        rw [show C.cellAt p = C.arena.getD cid default from by
          show C.arena.getD (C.cellIds.getD p 0) default = _
          rw [hpe]]
      have hstep : (setList (Colouring.degreeData C g
            (C.arena.getD ((mapGet? C.color_cell s).getD 0) default).members).2).foldl
          (Colouring.processColor g (Colouring.degreeData C g
            (C.arena.getD ((mapGet? C.color_cell s).getD 0) default).members).1)
          (C, W.filter (fun x => x != s), trace)
          = (C, W.filter (fun x => x != s), trace) := by
        rw [hmem_eq]
        exact foldl_processColor_equitable g C hwf heq p hp _ _ _
      exact Eq.trans
        (congrArg (fun x : Colouring × List Nat × List Nat =>
          Colouring.refineLoop g n x.2.1 x.1 x.2.2) hstep)
        (ih (W.filter (fun x => x != s)) trace
          (by have := length_filter_ne_lt hsW; omega)
          (fun x hx => hWk x (List.mem_of_mem_filter hx)))

/-- C9 counterexample.  On the 7-node graph with edges
`(0,3) (1,4) (2,4) (4,5)` and the wellformed starting partition
`{0,1,2} | {3,4} | {5,6}`, the first `refine` terminates with the cell
`{5,6}` still unsplit even though node 5 has an edge into the
now-singleton cell `{4}` and node 6 has none: the result is not
equitable, and an immediate second `refine` splits further, returning
the non-empty trace `[6]`. -/
theorem C9_counterexample :
    (((((Colouring.new ⟨7, [(0,3),(1,4),(2,4),(4,5)]⟩).split_cell 0 [0,1,2]).split_cell 1
      [3,4]).refine ⟨7, [(0,3),(1,4),(2,4),(4,5)]⟩).1.refine
      ⟨7, [(0,3),(1,4),(2,4),(4,5)]⟩).2 ≠ [] := by decide

/-- C9 as amended (proved).  `refine` is a no-op — it returns the
partition unchanged together with the empty trace — on every wellformed
*equitable* partition; the spec's idempotence claim holds exactly when
the first call's result is equitable, which the code does not always
establish (see the counterexample). -/
theorem C9_refine_equitable (C : Colouring) (g : Graph)
    (hwf : WF C) (heq : Equitable C g) :
    C.refine g = (C, []) := by
  unfold Colouring.refine
  by_cases hd : C.is_discrete
  · rw [if_pos hd]
  · rw [if_neg hd]
    exact refineLoop_equitable g C hwf heq _ _ []
      (Nat.le_add_left _ _) (fun s hs => hs)

/-- Witness for the amended C9: the uniform colouring of two isolated
nodes is wellformed and equitable, and `refine` returns it unchanged
with an empty trace. -/
theorem C9_refine_equitable_witness :
    WF (Colouring.new ⟨2, []⟩) ∧ Equitable (Colouring.new ⟨2, []⟩) ⟨2, []⟩ ∧
    (Colouring.new ⟨2, []⟩).refine ⟨2, []⟩ = (Colouring.new ⟨2, []⟩, []) :=
  ⟨by decide, by decide, C9_refine_equitable _ _ (by decide) (by decide)⟩

end Graphkey
